import Mathlib

/-!
Shallow embedding of the publication-enrichment core of
`backend/app/publications.py` (name normalisation, author-candidate
scoring and resolution, publication mapping, deduplication, tag
derivation, and the fetch orchestrator), together with theorems
settling the specification claims about it.

Strings are modelled as Lean `String`/`List Char`; the Python regular
expressions of the source are translated into explicit scanning
functions with the exact left-to-right, non-overlapping match
semantics of `re.sub`/`re.split`/`re.findall`.  Network calls are
modelled as oracle functions returning `Except Unit` results, mirroring
`httpx` calls that either deliver parsed JSON or raise.
-/

/-- Characters matched by Python's `\s` on ASCII text (space, tab,
newline, carriage return, vertical tab, form feed). -/
def pyIsSpace (c : Char) : Bool :=
  c = ' ' || c = '\t' || c = '\n' || c = '\r' || c = '\x0b' || c = '\x0c'

/-- Characters matched by Python's `\w` on ASCII text. -/
def isWordChar (c : Char) : Bool :=
  c.isAlpha || c.isDigit || c = '_'

/-- Python's `\b` holds before a word character iff the preceding
character (if any) is not a word character. -/
def boundaryOkL : Option Char → Bool
  | none => true
  | some c => !isWordChar c

/-- Python's `\b` holds after a word character iff the next character
(if any) is not a word character. -/
def boundaryOkR (cs : List Char) : Bool :=
  match cs.head? with
  | none => true
  | some c => !isWordChar c

/-- One collapsing pass of `re.sub(r"\s+", " ", ·)`: every maximal run
of whitespace becomes a single ASCII space. -/
def collapseWs : List Char → List Char
  | [] => []
  | [c] => if pyIsSpace c then [' '] else [c]
  | c :: d :: rest =>
    if pyIsSpace c && pyIsSpace d then collapseWs (d :: rest)
    else (if pyIsSpace c then ' ' else c) :: collapseWs (d :: rest)

/-- Strip leading whitespace (`str.lstrip`). -/
def pyStripFront (cs : List Char) : List Char := cs.dropWhile pyIsSpace

/-- Strip trailing whitespace (`str.rstrip`). -/
def pyStripBack (cs : List Char) : List Char :=
  ((cs.reverse).dropWhile pyIsSpace).reverse

/-- Python `str.strip()`. -/
def pyStrip (cs : List Char) : List Char := pyStripBack (pyStripFront cs)

/-- Python `str.lower()` on ASCII text. -/
def pyLowerL (cs : List Char) : List Char := cs.map Char.toLower

/-- Python `str.lower()` on `String`s. -/
def pyLower (s : String) : String := String.mk (pyLowerL s.toList)

/-- Python `str.split()` (split on whitespace runs, no empty tokens). -/
def pySplitAux : List Char → List Char → List (List Char)
  | acc, [] => if acc.isEmpty then [] else [acc.reverse]
  | acc, c :: rest =>
    if pyIsSpace c then
      if acc.isEmpty then pySplitAux [] rest else acc.reverse :: pySplitAux [] rest
    else pySplitAux (c :: acc) rest

/-- Python `str.split()` producing `String` tokens. -/
def pySplit (s : String) : List String := (pySplitAux [] s.toList).map String.mk

/-- Decide whether `needle` occurs as a contiguous substring of the
haystack (Python's `needle in haystack`). -/
def subOccurs (needle : List Char) : List Char → Bool
  | [] => needle.isEmpty
  | h :: t => needle.isPrefixOf (h :: t) || subOccurs needle t

/-- Python's `needle in haystack` on `String`s. -/
def strContains (haystack needle : String) : Bool :=
  subOccurs needle.toList haystack.toList

/-- Case-insensitive literal prefix match; returns the actually matched
characters together with the remainder of the text. -/
def stripPrefixCI : List Char → List Char → Option (List Char × List Char)
  | [], cs => some ([], cs)
  | _ :: _, [] => none
  | t :: ts, c :: cs =>
    if c.toLower = t.toLower then
      (stripPrefixCI ts cs).map (fun mr => (c :: mr.1, mr.2))
    else none

/-- Case-sensitive literal prefix match returning the remainder. -/
def stripPrefixExact : List Char → List Char → Option (List Char)
  | [], cs => some cs
  | _ :: _, [] => none
  | t :: ts, c :: cs => if c = t then stripPrefixExact ts cs else none

/-- Lexicographic (code-point) `≤` on character lists; the order Python
uses to compare strings. -/
def lexLe : List Char → List Char → Bool
  | [], _ => true
  | _ :: _, [] => false
  | a :: as, b :: bs => if a < b then true else if b < a then false else lexLe as bs

/-- Skip past the first `')'`, returning the remainder, as the regex
engine does when completing a `\([^)]*\)` match. -/
def afterRParen : List Char → Option (List Char)
  | [] => none
  | c :: rest => if c = ')' then some rest else afterRParen rest

/-- Fuelled scan of `re.sub(r"\([^)]*\)", "", ·)`: at each `'('` the
engine matches through the first following `')'` and deletes the whole
match, otherwise the character is kept. -/
def removeParensFuel : Nat → List Char → List Char
  | 0, _ => []
  | _ + 1, [] => []
  | f + 1, c :: rest =>
    if c = '(' then
      match afterRParen rest with
      | some after => removeParensFuel f after
      | none => c :: removeParensFuel f rest
    else c :: removeParensFuel f rest

/-- Execute `re.sub(r"\([^)]*\)", "", ·)`. -/
def removeParens (cs : List Char) : List Char := removeParensFuel cs.length cs

/-- The specialty marker words of the truncating
`re.split(r"\b(otolaryngology|ent|pediatric|pediatrics)\b", ·, flags=re.I)`. -/
def specialtyKeywords : List (List Char) :=
  [String.toList "otolaryngology", String.toList "ent",
   String.toList "pediatric", String.toList "pediatrics"]

/-- Does a whole-word, case-insensitive specialty keyword match start
at the current position (with `prev` the preceding character)? -/
def specialtyHitAt (prev : Option Char) (cs : List Char) : Bool :=
  boundaryOkL prev &&
    specialtyKeywords.any (fun k =>
      match stripPrefixCI k cs with
      | some mr => boundaryOkR mr.2
      | none => false)

/-- Scan for the first whole-word specialty keyword, keeping the prefix
before it (`re.split(...)[0]`). -/
def splitSpecialtyAux (prev : Option Char) : List Char → List Char
  | [] => []
  | c :: rest =>
    if specialtyHitAt prev (c :: rest) then []
    else c :: splitSpecialtyAux (some c) rest

/-- Truncate at the first whole-word specialty marker. -/
def splitSpecialty (cs : List Char) : List Char := splitSpecialtyAux none cs

/-- The credential vocabulary, in the source's tuple order (alternation
order matters to the regex engine). -/
def credentialTokens : List (List Char) :=
  ["md", "do", "phd", "mph", "ms", "msn", "mscr", "mspa", "msp", "aud",
   "np", "aprn", "pa", "pa-c", "rn", "bsn", "fnp", "anp", "cnp", "acnp",
   "agnp", "facs", "ccc-slp", "faap", "cnm", "dnp", "mba"].map String.toList

/-- First alternation branch that matches case-insensitively and is
followed by a word boundary, as regex backtracking selects it. -/
def credTokenFirst : List (List Char) → List Char → Option (List Char × List Char)
  | [], _ => none
  | t :: ts, cs =>
    match stripPrefixCI t cs with
    | some mr => if boundaryOkR mr.2 then some mr else credTokenFirst ts cs
    | none => credTokenFirst ts cs

/-- The token-and-optional-dot part of the credential match
(`\b(tok|...)\b\.?`), applied after the whitespace has been consumed. -/
def credAfterToken (cs2 : List Char) : Option (Char × List Char) :=
  match credTokenFirst credentialTokens cs2 with
  | some mr =>
    match mr.2 with
    | '.' :: r2 => some ('.', r2)
    | _ => some (mr.1.getLastD ' ', mr.2)
  | none => none

/-- Attempt the credential match `,?\s*\b(tok|...)\b\.?` at the current
position; on success return the last consumed character (the engine's
new left context) and the remainder after the match. -/
def credMatchAt (prev : Option Char) (cs : List Char) : Option (Char × List Char) :=
  let s1 : Option Char × List Char :=
    if cs.head? = some ',' then (some ',', cs.tail) else (prev, cs)
  let p2 := if (s1.2.takeWhile pyIsSpace).isEmpty then s1.1 else some ' '
  if boundaryOkL p2 then credAfterToken (s1.2.dropWhile pyIsSpace) else none

/-- Fuelled scan of the credential-stripping `re.sub`: try a match at
every position, delete matches, resume after each match. -/
def credStripFuel : Nat → Option Char → List Char → List Char
  | 0, _, _ => []
  | _ + 1, _, [] => []
  | f + 1, prev, c :: rest =>
    match credMatchAt prev (c :: rest) with
    | some la => credStripFuel f (some la.1) la.2
    | none => c :: credStripFuel f (some c) rest

/-- Execute the credential-stripping `re.sub`. -/
def credStrip (cs : List Char) : List Char := credStripFuel cs.length none cs

/-- The whole cleaning pipeline of `normalize_professor_name`, on
character lists. -/
def normalizeL (cs : List Char) : List Char :=
  let cs0 := cs.map (fun c => if c = '\n' then ' ' else c)
  let cs1 := pyStrip (collapseWs cs0)
  let cs2 := removeParens cs1
  let cs3 := splitSpecialty cs2
  let cs4 := credStrip cs3
  let cs5 := cs4.map (fun c => if c = ',' then ' ' else c)
  pyStrip (collapseWs cs5)

/-- `normalize_professor_name`: remove credentials, specialties and
extra whitespace to improve matching. -/
def normalize_professor_name (s : String) : String := String.mk (normalizeL s.toList)

example : normalize_professor_name "Jane A. Doe, MD, PhD (Otolaryngology)" = "Jane A. Doe" := by decide
example : normalize_professor_name "m, do.d" = "md" := by decide
example : normalize_professor_name "md" = "" := by decide
example : normalize_professor_name "John Smith, PA-C" = "John Smith-C" := by decide
example : normalize_professor_name "Dr. Foo ENT specialist" = "Dr. Foo" := by decide
example : normalize_professor_name "bob (x(y)z) w" = "bob z) w" := by decide
example : normalize_professor_name "q (unclosed" = "q (unclosed" := by decide
example : pySplit "a  bc " = ["a", "bc"] := by decide

/-- Python truthiness of an optional string (`None` and `""` are falsy). -/
def pyTruthyS : Option String → Bool
  | none => false
  | some s => s ≠ ""

/-- Python truthiness of an optional integer (`None` and `0` are falsy). -/
def pyTruthyI : Option Int → Bool
  | none => false
  | some n => n ≠ 0

/-- Python `a or b` on optional strings. -/
def pyOrS (a b : Option String) : Option String :=
  if pyTruthyS a then a else b

/-- "last , first" helper: `_names_match(a, b)` compares the lowered
normalisations for equality. -/
def names_match (a b : String) : Bool :=
  pyLower (normalize_professor_name a) = pyLower (normalize_professor_name b)

/-- Python list-`set` insertion: add an element unless already present. -/
def insertNew (l : List String) (x : String) : List String :=
  if x ∈ l then l else l ++ [x]

/-- The elements of the `variants` set built by `name_variants`, in
insertion order.  Python iterates the set in an unspecified
(hash-seed dependent) order; `name_variants` below therefore takes the
iteration order as a parameter ranging over the permutations. -/
def name_variants_elems (cleaned_name : String) : List String :=
  let parts := pySplit cleaned_name
  let base := [cleaned_name]
  if 2 ≤ parts.length then
    insertNew (insertNew base ((parts.headD "") ++ " " ++ (parts.getLastD "")))
      ((parts.getLastD "") ++ ", " ++ (parts.headD ""))
  else base

/-- `name_variants`: list the set's elements in the iteration order
`setOrder` chosen by the Python runtime, dropping empty strings. -/
def name_variants (setOrder : List String → List String) (cleaned_name : String) :
    List String :=
  (setOrder (name_variants_elems cleaned_name)).filter (fun v => v ≠ "")

/-- Scores are represented exactly in half-point units: every score
constant in the source (`4`, `3`, `2`, `0.5`, `2`, `2.5`, `1.5`, `-1`,
`0.5`, and the threshold `5`) is an integer multiple of `0.5`, float
arithmetic on such values is exact, and doubling is strictly monotone,
so an `Int` value `v` here stands for the Python float `v / 2` and all
comparisons of the source are preserved verbatim. -/
abbrev Score := Int

/-- `_name_similarity_score` (half-point units: `8, 6, 4, 1, 0` stand
for `4, 3, 2, 0.5, 0`). -/
def name_similarity_score (candidate target : String) : Score :=
  let cand_parts := pySplit candidate
  let target_parts := pySplit target
  if cand_parts.isEmpty || target_parts.isEmpty then 0
  else if names_match candidate target then 8
  else if cand_parts.getLastD "" = target_parts.getLastD "" then
    if String.mk ((cand_parts.headD "").toList.take 1)
        = String.mk ((target_parts.headD "").toList.take 1) then 6
    else 4
  else if cand_parts.headD "" = target_parts.headD "" then 1
  else 0

/-- The `INSTITUTION_ALIASES` table, in declaration order. -/
def INSTITUTION_ALIASES : List (String × List String) :=
  [("northwestern university",
    ["northwestern", "northwestern university", "northwestern medicine", "feinberg"]),
   ("university of chicago",
    ["university of chicago", "uchicago", "u chicago", "uchicago medicine"]),
   ("university of illinois chicago",
    ["university of illinois chicago", "uic", "illinois at chicago", "illinois chicago"]),
   ("rush medical school",
    ["rush medical school", "rush university", "rush university medical center",
     "rush medical college"])]

/-- `_institution_key`. -/
def institution_key (name : String) : String :=
  let normalized := String.mk (pyStrip (pyLowerL name.toList))
  match INSTITUTION_ALIASES.find? (fun ka => normalized = ka.1 || normalized ∈ ka.2) with
  | some ka => ka.1
  | none => normalized

/-- `_institution_aliases`. -/
def institution_aliases (institution : String) : List String :=
  let key := institution_key institution
  match (INSTITUTION_ALIASES.find? (fun ka => ka.1 = key)) with
  | some ka => ka.2
  | none => [key]

/-- `_institution_matches`: substring containment of any alias in the
lowered candidate name. -/
def institution_matches (candidate : String) (aliases : List String) : Bool :=
  aliases.any (fun al => strContains (pyLower candidate) al)

/-- The `ENT_CONCEPT_TERMS` set. -/
def ENT_CONCEPT_TERMS : List String :=
  ["otolaryngology", "otorhinolaryngology", "head and neck surgery", "audiology",
   "hearing", "neurosciences", "neurology", "oncology", "laryngology",
   "sinusitis", "sleep medicine"]

/-- `_concept_score` (half-point units: `5, 3, -2` stand for
`2.5, 1.5, -1`): each concept is modelled by its optional
`display_name`; the Python `set` comprehension counts distinct lowered
names, modelled by `dedup`. -/
def concept_score (concepts : List (Option String)) : Score :=
  if concepts.isEmpty then 0
  else
    let names := (((concepts.filterMap id).filter (fun n => n ≠ "")).map pyLower).dedup
    let hits := (names.filter
      (fun name => ENT_CONCEPT_TERMS.any (fun term => strContains name term))).length
    if 2 ≤ hits then 5
    else if hits = 1 then 3
    else -2

/-- An OpenAlex author-search candidate record, keeping the fields the
scorer reads (affiliations and concepts are modelled by their optional
`display_name` strings). -/
structure Candidate where
  id : Option String
  display_name : Option String
  last_known_institution : Option String
  affiliations : List (Option String)
  x_concepts : List (Option String)
  works_count : Option Int
  cited_by_count : Option Int
deriving DecidableEq

/-- `_score_author_candidate` (half-point units: the `+2` institution
bump is `4`, the `+0.5` bonuses are `1`). -/
def score_author_candidate (candidate : Candidate) (target_name : String)
    (institution : Option String) : Score :=
  let candidate_name := normalize_professor_name (candidate.display_name.getD "")
  let nameScore := name_similarity_score candidate_name target_name
  let instScore : Score :=
    if pyTruthyS institution then
      let aliases := institution_aliases (institution.getD "")
      let lastKnown := candidate.last_known_institution.getD ""
      let hits1 : Nat := if institution_matches lastKnown aliases then 1 else 0
      let hits2 : Nat :=
        if candidate.affiliations.any
            (fun aff => institution_matches (aff.getD "") aliases) then 1 else 0
      4 * min (hits1 + hits2 : Int) 1
    else 0
  let conceptPart := concept_score candidate.x_concepts
  let worksBonus : Score := if 10 < candidate.works_count.getD 0 then 1 else 0
  let citedBonus : Score := if 200 < candidate.cited_by_count.getD 0 then 1 else 0
  nameScore + instScore + conceptPart + worksBonus + citedBonus

/-- Running best-candidate update of `_resolve_openalex_author`'s inner
loop (`if score > best_score`). -/
def scanCandidates (target : String) (institution : Option String) :
    List Candidate → Option Candidate × Score → Option Candidate × Score
  | [], acc => acc
  | c :: cs, acc =>
    if acc.2 < score_author_candidate c target institution then
      scanCandidates target institution cs (some c, score_author_candidate c target institution)
    else scanCandidates target institution cs acc

/-- The variant loop of `_resolve_openalex_author`: each author search
may raise (propagating to the caller's handler); the loop breaks once
the best score reaches 5 (10 half-points), and finally returns the
best candidate's id. -/
def resolveLoop (search : String → Except Unit (List Candidate))
    (institution : Option String) :
    List String → Option Candidate × Score → Except Unit (Option String)
  | [], acc => .ok (acc.1.bind Candidate.id)
  | n :: rest, acc =>
    match search n with
    | .error u => .error u
    | .ok results =>
      let acc2 := scanCandidates n institution results acc
      if 10 ≤ acc2.2 then .ok (acc2.1.bind Candidate.id)
      else resolveLoop search institution rest acc2

/-- `_resolve_openalex_author`. -/
def resolve_openalex_author (search : String → Except Unit (List Candidate))
    (name_options : List String) (institution : Option String) :
    Except Unit (Option String) :=
  resolveLoop search institution name_options (none, 0)

/-- The system's normalised publication shape. -/
structure Pub where
  title : Option String
  published_on : Option String
  link : Option String
  co_authors : List String
  abstract : Option String
deriving DecidableEq

/-- An OpenAlex work record, with fields flattened to what the mapper
reads (`authorships` keeps the optional author display names). -/
structure OAItem where
  id : Option String
  doi : Option String
  display_name : Option String
  authorships : List (Option String)
  publication_year : Option Int
  publication_date : Option String
  landing_page_url : Option String
  abstract_inverted_index : Option (List (String × List Int))
deriving DecidableEq

/-- `_openalex_published_on`. -/
def openalex_published_on (item : OAItem) : Option String :=
  if pyTruthyS item.publication_date then item.publication_date
  else if pyTruthyI item.publication_year then
    some (toString (item.publication_year.getD 0))
  else none

/-- Left-to-right non-overlapping `str.split(sep)[-1]`: the text after
the last separator occurrence found by the scan. -/
def splitLastFuel (sep : List Char) : Nat → List Char → List Char → List Char
  | 0, acc, _ => acc.reverse
  | _ + 1, acc, [] => acc.reverse
  | f + 1, acc, c :: rest =>
    match stripPrefixExact sep (c :: rest) with
    | some after => splitLastFuel sep f [] after
    | none => splitLastFuel sep f (c :: acc) rest

/-- Python `s.split(sep)[-1]` for a non-empty separator. -/
def splitTakeLast (sep s : String) : String :=
  String.mk (splitLastFuel sep.toList s.toList.length [] s.toList)

/-- `_openalex_link`. -/
def openalex_link (item : OAItem) : Option String :=
  if pyTruthyS item.doi then
    some ("https://doi.org/" ++ splitTakeLast "doi.org/" (item.doi.getD ""))
  else if pyTruthyS item.landing_page_url then item.landing_page_url
  else if pyTruthyS item.id then
    some ("https://openalex.org/" ++ splitTakeLast "/" (item.id.getD ""))
  else none

/-- Shared co-author assembly: keep truthy names and prepend the
subject when no listed name `_names_match`es it. -/
def coauthors_with_subject (listed : List (Option String)) (professor_name : String) :
    List String :=
  let names := (listed.filterMap id).filter (fun n => n ≠ "")
  if professor_name ≠ "" && !(names.any (fun n => names_match n professor_name)) then
    professor_name :: names
  else names

/-- `_openalex_coauthors`. -/
def openalex_coauthors (item : OAItem) (professor_name : String) : List String :=
  coauthors_with_subject item.authorships professor_name

/-- Flatten an inverted index to `(position, word)` pairs, in the
source's iteration order. -/
def invertedTokens (inverted : List (String × List Int)) : List (Int × String) :=
  inverted.flatMap (fun wp => wp.2.map (fun pos => (pos, wp.1)))

/-- Sort key order for `(position, word)` pairs (`key=lambda t: t[0]`). -/
def posLe (a b : Int × String) : Prop := a.1 ≤ b.1

instance : DecidableRel posLe := fun a b => inferInstanceAs (Decidable (a.1 ≤ b.1))

instance : IsTotal (Int × String) posLe := ⟨fun a b => Int.le_total a.1 b.1⟩

instance : IsTrans (Int × String) posLe := ⟨fun _ _ _ h1 h2 => le_trans h1 h2⟩

/-- Python `" ".join`. -/
def joinSpace : List String → String
  | [] => ""
  | [w] => w
  | w :: ws => w ++ " " ++ joinSpace ws

/-- `_openalex_abstract`: reconstruct the abstract from the inverted
index, or `None` when the index is absent or empty. -/
def openalex_abstract (item : OAItem) : Option String :=
  let inverted := item.abstract_inverted_index.getD []
  if inverted.isEmpty then none
  else
    let tokens := List.insertionSort posLe (invertedTokens inverted)
    some (joinSpace (tokens.map (fun t => t.2)))

/-- `_map_openalex_work`. -/
def map_openalex_work (item : OAItem) (professor_name : String) : Pub :=
  { title := item.display_name
    published_on := openalex_published_on item
    link := openalex_link item
    co_authors := openalex_coauthors item professor_name
    abstract := openalex_abstract item }

/-- The deduplication key: lowercase-trimmed title, with missing titles
read as the empty string. -/
def normTitle (p : Pub) : String :=
  String.mk (pyLowerL (pyStrip (p.title.getD "").toList))

/-- The sort key of `_dedupe_publications`' final sort
(`p.get("published_on") or ""`). -/
def pubKeyL (p : Pub) : List Char := (p.published_on.getD "").toList

/-- The descending-recency order: `a` may come before `b` iff `b`'s key
is lexicographically at most `a`'s. -/
def pubGe (a b : Pub) : Prop := lexLe (pubKeyL b) (pubKeyL a) = true

instance : DecidableRel pubGe :=
  fun a b => inferInstanceAs (Decidable (lexLe (pubKeyL b) (pubKeyL a) = true))

/-- First scanning pass of `_dedupe_publications`: drop empty and
already-seen lowercase-trimmed titles. -/
def dedupeScan (seen : List String) : List Pub → List Pub
  | [] => []
  | p :: ps =>
    let t := normTitle p
    if t = "" ∨ t ∈ seen then dedupeScan seen ps
    else p :: dedupeScan (t :: seen) ps

/-- `_dedupe_publications`: scan out duplicates, then stable-sort by
`published_on` descending (Python's `list.sort(..., reverse=True)` is
the unique stable descending sort, here realised by insertion sort). -/
def dedupe_publications (pubs : List Pub) : List Pub :=
  List.insertionSort pubGe (dedupeScan [] pubs)

/-- The `ENT_KEYWORDS` taxonomy, in declaration order. -/
def ENT_KEYWORDS : List (String × String) :=
  [("otology", "otology"), ("neurotology", "neurotology"),
   ("hearing loss", "hearing loss"), ("hearing", "hearing"),
   ("cochlear implant", "cochlear implants"), ("cochlear implants", "cochlear implants"),
   ("tinnitus", "tinnitus"), ("vertigo", "vertigo"), ("balance", "balance"),
   ("audiology", "audiology"), ("pediatric", "pediatric otolaryngology"),
   ("otolaryngology", "otolaryngology"), ("sinus", "sinusitis"),
   ("rhinology", "rhinology"), ("nasal", "nasal disorders"),
   ("sleep apnea", "sleep apnea"), ("sleep", "sleep medicine"),
   ("laryngology", "laryngology"), ("voice", "voice"), ("airway", "airway"),
   ("head and neck", "head and neck"), ("oncology", "oncology"),
   ("thyroid", "thyroid"), ("parathyroid", "parathyroid"),
   ("skull base", "skull base"), ("facial plastic", "facial plastics"),
   ("reconstructive", "reconstructive surgery"), ("allergy", "allergy")]

/-- `ENT_KEYWORD_TERMS` (the lowered taxonomy phrases). -/
def ENT_KEYWORD_TERMS : List String := ENT_KEYWORDS.map (fun kv => pyLower kv.1)

/-- `_filter_ent_publications`: keep topically relevant records, falling
back to the whole list when nothing matches. -/
def filter_ent_publications (pubs : List Pub) : List Pub :=
  let filtered := pubs.filter (fun pub =>
    let text := pyLower (pub.title.getD "") ++ " " ++ pyLower (pub.abstract.getD "")
    ENT_KEYWORD_TERMS.any (fun term => strContains text term))
  if filtered.isEmpty then pubs else filtered

example : normalize_professor_name "" = "" := by decide
example : name_similarity_score "jane doe" "jane doe" = 8 := by decide
example : name_similarity_score "john doe" "jane doe" = 6 := by decide
example : name_similarity_score "mary doe" "jane doe" = 4 := by decide
example : name_similarity_score "jane roe" "jane doe" = 1 := by decide
example : institution_key "UIC" = "university of illinois chicago" := by decide
example : concept_score [some "Hearing and speech", some "Audiology"] = 5 := by decide
example : concept_score [some "Computer science"] = -2 := by decide

/-- A Semantic Scholar paper record, fields flattened to what the
mapper reads (`externalIds.DOI` as an optional string, `authors` as
their optional names). -/
structure SemItem where
  title : Option String
  abstract : Option String
  year : Option Int
  publicationDate : Option String
  date : Option String
  url : Option String
  doi : Option String
  authors : List (Option String)
deriving DecidableEq

/-- `_published_on` (Semantic Scholar): the year, when truthy, is
preferred over the full-date fields. -/
def published_on (item : SemItem) : Option String :=
  if pyTruthyI item.year then some (toString (item.year.getD 0))
  else if pyTruthyS item.publicationDate then item.publicationDate
  else if pyTruthyS item.date then item.date
  else none

/-- `_first_doi`. -/
def first_doi (item : SemItem) : Option String :=
  if pyTruthyS item.doi then some ("https://doi.org/" ++ item.doi.getD "") else none

/-- `_co_authors` (Semantic Scholar). -/
def co_authors (item : SemItem) (professor_name : String) : List String :=
  coauthors_with_subject item.authors professor_name

/-- The per-item mapping inside `_fetch_from_semantic_scholar`. -/
def map_semantic_item (item : SemItem) (professor_name : String) : Pub :=
  { title := item.title
    published_on := published_on item
    link := pyOrS item.url (first_doi item)
    co_authors := co_authors item professor_name
    abstract := item.abstract }

/-- A Semantic Scholar author-search hit. -/
structure SemAuthor where
  authorId : Option String
deriving DecidableEq

/-- A raw person record: per the data model, `institution_id` is
non-nullable, so every professor carries an institution name. -/
structure Professor where
  name : String
  institution_name : String
deriving DecidableEq

/-- The two external bibliographic sources, as oracles from query
inputs to either parsed results or a raised transport error
(`Except.error`): author search and the two works endpoints of the
primary source, and author search plus paper listing of the fallback
source.  Query parameters that only shape the HTTP request (filters,
paging, field selection) are absorbed into the oracle. -/
structure Provider where
  authorsSearch : String → Except Unit (List Candidate)
  worksByAuthor : String → Except Unit (List OAItem)
  worksSearch : String → Except Unit (List OAItem)
  semAuthorSearch : String → Except Unit (List SemAuthor)
  semPapers : String → Except Unit (List SemItem)

/-- `_fetch_openalex_works`, from the response onward: map, topic
filter, dedupe. -/
def fetch_openalex_works (P : Provider) (author_id : String)
    (professor_name : String) : Except Unit (List Pub) :=
  match P.worksByAuthor author_id with
  | .error u => .error u
  | .ok items =>
    .ok (dedupe_publications
      (filter_ent_publications (items.map (fun it => map_openalex_work it professor_name))))

/-- `_search_openalex_works`: try each name variant in order; a raised
request propagates to `_fetch_from_openalex`'s handler. -/
def search_openalex_works (P : Provider) (professor_name : String) :
    List String → Except Unit (List Pub)
  | [] => .ok []
  | n :: rest =>
    match P.worksSearch n with
    | .error u => .error u
    | .ok items =>
      let pubs := filter_ent_publications
        (items.map (fun it => map_openalex_work it professor_name))
      if pubs.isEmpty then search_openalex_works P professor_name rest
      else .ok (dedupe_publications pubs)

/-- The body of `_fetch_from_openalex`'s `try` block.  The institution
object is non-null (data model), so the `if professor.institution`
guard always takes its truthy branch and passes the institution name. -/
def fetch_from_openalex_body (P : Provider) (professor : Professor)
    (name_options : List String) : Except Unit (List Pub) :=
  let institution : Option String := some professor.institution_name
  match resolve_openalex_author P.authorsSearch name_options institution with
  | .error u => .error u
  | .ok author_id =>
    if pyTruthyS author_id then
      match fetch_openalex_works P (author_id.getD "") professor.name with
      | .error u => .error u
      | .ok pubs =>
        if pubs.isEmpty then search_openalex_works P professor.name name_options
        else .ok pubs
    else search_openalex_works P professor.name name_options

/-- `_fetch_from_openalex`: any raised error inside the `try` block is
swallowed into an empty result. -/
def fetch_from_openalex (P : Provider) (professor : Professor)
    (name_options : List String) : List Pub :=
  match fetch_from_openalex_body P professor name_options with
  | .error _ => []
  | .ok pubs => pubs

/-- `_lookup_semantic_author_id`: its own `try` turns a raised request
into `None`; an empty hit list also yields `None`. -/
def lookup_semantic_author_id (P : Provider) (professor : Professor)
    (cleaned_name : String) : Option String :=
  let query := cleaned_name ++ " " ++ professor.institution_name
  match P.semAuthorSearch query with
  | .error _ => none
  | .ok data =>
    match data with
    | [] => none
    | a :: _ => a.authorId

/-- `_fetch_from_semantic_scholar`: resolve one author id, fetch its
papers (errors swallowed to an empty list), map each record, and
stable-sort by `published_on` descending — note: no deduplication and
no topic filter on this path. -/
def fetch_from_semantic_scholar (P : Provider) (professor : Professor)
    (cleaned_name : String) (limit : Nat) : List Pub :=
  let author_id := lookup_semantic_author_id P professor cleaned_name
  if pyTruthyS author_id then
    match P.semPapers (author_id.getD "") with
    | .error _ => []
    | .ok data =>
      List.insertionSort pubGe (data.map (fun it => map_semantic_item it professor.name))
  else []

/-- `fetch_publications`: the enrichment orchestrator.  `setOrder` is
the Python-set iteration order used by `name_variants`; `offline` is
the `ENT_OFFLINE` flag; `limit` is the page/truncation size. -/
def fetch_publications (setOrder : List String → List String) (P : Provider)
    (offline : Bool) (professor : Professor) (limit : Nat) : List Pub :=
  if offline then []
  else
    let cleaned_name := normalize_professor_name professor.name
    let name_options := name_variants setOrder cleaned_name
    if name_options.isEmpty then []
    else
      let pubs := fetch_from_openalex P professor name_options
      if !pubs.isEmpty then pubs.take limit
      else (fetch_from_semantic_scholar P professor (name_options.headD "") limit).take limit

/-- Count the non-overlapping, boundary-anchored occurrences of a
literal phrase, as `re.findall(rf"\b{re.escape(phrase)}\b", text)`
counts them: scan left to right, resume after each match. -/
def countHitsFuel (phrase : List Char) : Nat → Option Char → List Char → Nat
  | 0, _, _ => 0
  | _ + 1, _, [] => 0
  | f + 1, prev, c :: rest =>
    match (if boundaryOkL prev then stripPrefixExact phrase (c :: rest) else none) with
    | some after =>
      if boundaryOkR after then 1 + countHitsFuel phrase f (some (phrase.getLastD ' ')) after
      else countHitsFuel phrase f (some c) rest
    | none => countHitsFuel phrase f (some c) rest

/-- Occurrence count of a taxonomy phrase in the lowered biography. -/
def phraseCount (phrase : String) (text : List Char) : Nat :=
  countHitsFuel phrase.toList text.length none text

/-- `collections.Counter` modelled as an association list in first-key
insertion order; `counts[key] += n`. -/
def counterAdd : List (String × Nat) → String → Nat → List (String × Nat)
  | [], key, n => [(key, n)]
  | (k0, n0) :: rest, key, n =>
    if k0 = key then (k0, n0 + n) :: rest
    else (k0, n0) :: counterAdd rest key n

/-- Count order for `Counter.most_common` (stable descending by count). -/
def cntGe (a b : String × Nat) : Prop := b.2 ≤ a.2

instance : DecidableRel cntGe := fun a b => inferInstanceAs (Decidable (b.2 ≤ a.2))

instance : IsTotal (String × Nat) cntGe := ⟨fun a b => Nat.le_total b.2 a.2⟩

instance : IsTrans (String × Nat) cntGe := ⟨fun _ _ _ h1 h2 => le_trans h2 h1⟩

/-- `Counter.most_common(n)`: documented as equivalent to
`sorted(items, key=count, reverse=True)[:n]`, i.e. the stable
descending sort of the items in insertion order, truncated. -/
def mostCommon (n : Nat) (items : List (String × Nat)) : List (String × Nat) :=
  (List.insertionSort cntGe items).take n

/-- The `Counter` built by the taxonomy loop of `derive_tags`:
`counts[canonical] += len(hits)` for each phrase with hits, in
taxonomy declaration order. -/
def tagCounts (combined : List Char) : List (String × Nat) :=
  ENT_KEYWORDS.foldl
    (fun counts pc =>
      let hits := phraseCount pc.1 combined
      if hits ≠ 0 then counterAdd counts pc.2 hits else counts)
    []

/-- The stop-word set of `normalize_terms`. -/
def stopWords : List String :=
  ["with", "from", "this", "that", "into", "using", "study", "case", "role",
   "professor", "assistant", "associate", "doctor", "clinical", "medicine",
   "department"]

/-- `normalize_terms`: strip non-letters, lowercase, keep tokens longer
than 3 letters that are not stop words. -/
def normalize_terms (text : String) : List String :=
  let cleaned := pyLowerL
    (text.toList.map (fun c => if c.isAlpha || pyIsSpace c then c else ' '))
  let words := ((pySplitAux [] cleaned).map String.mk).filter (fun w => 3 < w.length)
  words.filter (fun w => w ∉ stopWords)

/-- `derive_tags`: taxonomy counts over the lowered biography, else the
generic keyword fallback; publications are ignored by design. -/
def derive_tags (publications : List Pub) (biography : Option String) : List String :=
  if !pyTruthyS biography then []
  else
    let combined := pyLowerL (biography.getD "").toList
    let counts := tagCounts combined
    if !counts.isEmpty then (mostCommon 10 counts).map (fun kv => kv.1)
    else
      let tokens := normalize_terms (biography.getD "")
      let counts2 := tokens.foldl (fun cs t => counterAdd cs t 1) []
      (mostCommon 10 counts2).map (fun kv => kv.1)

example :
    derive_tags [] (some "specializes in cochlear implants and tinnitus management")
      = ["cochlear implants", "tinnitus"] := by decide
example :
    derive_tags [] (some "I study the cochlear implant and cochlear implants")
      = ["cochlear implants"] := by decide
example : derive_tags [] none = [] := by decide
example : phraseCount "cochlear implant" "cochlear implants".toList = 0 := by decide
example : published_on
    { title := none, abstract := none, year := some 2020,
      publicationDate := some "2021-05-01", date := none, url := none,
      doi := none, authors := [] } = some "2020" := by decide

/-- The claim's tiered description of the name-similarity sub-score,
written from the spec's words: exact normalized match, then equal last
tokens with or without a shared first initial, then equal first tokens
(half-point units, as everywhere). -/
def claim_name_tiers (candidate target : String) : Score :=
  if names_match candidate target then 8
  else if (pySplit candidate).getLast? = (pySplit target).getLast? then
    if ((pySplit candidate).head?.bind (fun w => w.toList.head?))
        = ((pySplit target).head?.bind (fun w => w.toList.head?)) then 6
    else 4
  else if (pySplit candidate).head? = (pySplit target).head? then 1
  else 0

/-- A candidate that scores 4 points (8 half-points): exact name match,
no institution signal, no concepts, no productivity bonus — below the
acceptance threshold of 5. -/
def lowScoreCandidate : Candidate :=
  { id := some "A1", display_name := some "jane doe", last_known_institution := none,
    affiliations := [], x_concepts := [], works_count := some 0,
    cited_by_count := some 0 }

/-- A candidate that scores below zero: no usable name and a concept
cluster with no ENT term. -/
def zeroCand : Candidate :=
  { id := some "A2", display_name := none, last_known_institution := none,
    affiliations := [some "Somewhere"], x_concepts := [some "Computer science"],
    works_count := some 3, cited_by_count := some 7 }

/-- Two fallback-source records with the same lowercase-trimmed title. -/
def semItemDup1 : SemItem :=
  { title := some "Advances in Otolaryngology", abstract := none, year := some 2020,
    publicationDate := none, date := none, url := none, doi := none, authors := [] }

/-- The second copy, differing only in case/whitespace and year. -/
def semItemDup2 : SemItem :=
  { title := some "advances in otolaryngology ", abstract := none, year := some 2019,
    publicationDate := none, date := none, url := none, doi := none, authors := [] }

/-- A provider whose fallback source returns one author and the two
duplicate-titled papers; the primary source always errors. -/
def semDupProvider : Provider :=
  { authorsSearch := fun _ => .error ()
    worksByAuthor := fun _ => .error ()
    worksSearch := fun _ => .error ()
    semAuthorSearch := fun _ => .ok [{ authorId := some "S1" }]
    semPapers := fun _ => .ok [semItemDup1, semItemDup2] }

/-- Fixture: a publication titled "Advances in Otolaryngology". -/
def pubDupA : Pub :=
  { title := some "Advances in Otolaryngology", published_on := none,
    link := none, co_authors := [], abstract := none }

/-- Fixture: the same title in different case and whitespace. -/
def pubDupB : Pub :=
  { title := some " advances in OTOLARYNGOLOGY ", published_on := some "2020",
    link := none, co_authors := [], abstract := none }

/-- Fixture: a record with an empty title. -/
def pubEmptyTitle : Pub :=
  { title := some "", published_on := some "2021", link := none,
    co_authors := [], abstract := none }

/-! ### Order facts about the lexicographic key comparison -/

theorem lexLe_total : ∀ a b : List Char, lexLe a b = true ∨ lexLe b a = true
  | [], _ => Or.inl rfl
  | _ :: _, [] => Or.inr rfl
  | a :: as, b :: bs => by
    by_cases hab : a < b
    · left; simp [lexLe, hab]
    · by_cases hba : b < a
      · right; simp [lexLe, hba]
      · have ih := lexLe_total as bs
        simpa [lexLe, hab, hba] using ih

theorem lexLe_trans :
    ∀ {a b c : List Char}, lexLe a b = true → lexLe b c = true → lexLe a c = true
  | [], _, _, _, _ => rfl
  | _ :: _, [], _, h1, _ => absurd h1 (by simp [lexLe])
  | _ :: _, _ :: _, [], _, h2 => absurd h2 (by simp [lexLe])
  | a :: as, b :: bs, c :: cs, h1, h2 => by
    by_cases hab : a < b
    · by_cases hbc : b < c
      · simp [lexLe, lt_trans hab hbc]
      · by_cases hcb : c < b
        · exact absurd h2 (by simp [lexLe, hbc, hcb])
        · have hbceq : b = c := le_antisymm (le_of_not_lt hcb) (le_of_not_lt hbc)
          subst hbceq
          simp [lexLe, hab]
    · by_cases hba : b < a
      · exact absurd h1 (by simp [lexLe, hab, hba])
      · have habeq : a = b := le_antisymm (le_of_not_lt hba) (le_of_not_lt hab)
        subst habeq
        by_cases hbc : a < c
        · simp [lexLe, hbc]
        · by_cases hcb : c < a
          · exact absurd h2 (by simp [lexLe, hbc, hcb])
          · have h1' : lexLe as bs = true := by simpa [lexLe, hab, hba] using h1
            have h2' : lexLe bs cs = true := by simpa [lexLe, hbc, hcb] using h2
            simpa [lexLe, hbc, hcb] using lexLe_trans h1' h2'

instance : IsTotal Pub pubGe := ⟨fun a b => lexLe_total (pubKeyL b) (pubKeyL a)⟩

instance : IsTrans Pub pubGe := ⟨fun _ _ _ h1 h2 => lexLe_trans h2 h1⟩

/-! ### Deduplication invariants (claim C6 and the fallback path) -/

theorem dedupeScan_mem :
    ∀ (seen : List String) (l : List Pub) (p : Pub), p ∈ dedupeScan seen l →
      normTitle p ≠ "" ∧ normTitle p ∉ seen
  | _, [], _, h => absurd h (by simp [dedupeScan])
  | seen, q :: ps, p, h => by
    rw [dedupeScan] at h
    split at h
    · exact dedupeScan_mem seen ps p h
    · rcases List.mem_cons.mp h with hpq | hmem
      · subst hpq
        rename_i hcond
        push_neg at hcond
        exact ⟨hcond.1, hcond.2⟩
      · have := dedupeScan_mem (normTitle q :: seen) ps p hmem
        exact ⟨this.1, fun hs => this.2 (List.mem_cons_of_mem _ hs)⟩

theorem dedupeScan_pairwise :
    ∀ (seen : List String) (l : List Pub),
      (dedupeScan seen l).Pairwise (fun p q => normTitle p ≠ normTitle q)
  | _, [] => by simp [dedupeScan]
  | seen, q :: ps => by
    rw [dedupeScan]
    split
    · exact dedupeScan_pairwise seen ps
    · refine List.Pairwise.cons ?_ (dedupeScan_pairwise _ ps)
      intro p hp hqp
      exact (dedupeScan_mem _ ps p hp).2 (hqp ▸ List.mem_cons_self _ _)

theorem dedupeScan_eq_self :
    ∀ (seen : List String) (l : List Pub),
      (∀ p ∈ l, normTitle p ≠ "" ∧ normTitle p ∉ seen) →
      l.Pairwise (fun p q => normTitle p ≠ normTitle q) →
      dedupeScan seen l = l
  | _, [], _, _ => by simp [dedupeScan]
  | seen, q :: ps, hmem, hpw => by
    rw [dedupeScan]
    have hq := hmem q (List.mem_cons_self _ _)
    rw [if_neg (by push_neg; exact hq)]
    refine congrArg (q :: ·) (dedupeScan_eq_self _ ps ?_ (List.Pairwise.of_cons hpw))
    intro p hp
    refine ⟨(hmem p (List.mem_cons_of_mem _ hp)).1, ?_⟩
    intro hin
    rcases List.mem_cons.mp hin with heq | hseen
    · exact (List.pairwise_cons.mp hpw).1 p hp heq.symm
    · exact (hmem p (List.mem_cons_of_mem _ hp)).2 hseen

theorem dedupe_publications_perm (l : List Pub) :
    List.Perm (dedupe_publications l) (dedupeScan [] l) :=
  List.perm_insertionSort pubGe (dedupeScan [] l)

theorem dedupe_publications_sorted (l : List Pub) :
    (dedupe_publications l).Pairwise pubGe :=
  List.sorted_insertionSort pubGe (dedupeScan [] l)

theorem dedupe_publications_pairwise (l : List Pub) :
    (dedupe_publications l).Pairwise (fun p q => normTitle p ≠ normTitle q) := by
  exact ((dedupe_publications_perm l).pairwise_iff
    (fun h he => h he.symm)).mpr (dedupeScan_pairwise [] l)

theorem dedupe_publications_mem (l : List Pub) (p : Pub)
    (hp : p ∈ dedupe_publications l) : normTitle p ≠ "" :=
  (dedupeScan_mem [] l p ((dedupe_publications_perm l).mem_iff.mp hp)).1

theorem dedupe_publications_idem (l : List Pub) :
    dedupe_publications (dedupe_publications l) = dedupe_publications l := by
  have hscan : dedupeScan [] (dedupe_publications l) = dedupe_publications l := by
    refine dedupeScan_eq_self [] (dedupe_publications l) ?_ (dedupe_publications_pairwise l)
    intro p hp
    exact ⟨dedupe_publications_mem l p hp, by simp⟩
  rw [dedupe_publications, hscan]
  exact List.Sorted.insertionSort_eq (dedupe_publications_sorted l)

/-- Claim C6: deduplication is idempotent, its output has pairwise
distinct, non-empty lowercase-trimmed titles, and is sorted by
`published_on` descending under lexical string comparison with absent
dates reading as `""` (hence sorting last). -/
theorem claim_C6_dedupe_invariants : ∀ L : List Pub,
    dedupe_publications (dedupe_publications L) = dedupe_publications L
    ∧ (dedupe_publications L).Pairwise (fun p q => normTitle p ≠ normTitle q)
    ∧ (∀ p ∈ dedupe_publications L, normTitle p ≠ "")
    ∧ (dedupe_publications L).Pairwise pubGe :=
  fun L =>
    ⟨dedupe_publications_idem L, dedupe_publications_pairwise L,
     dedupe_publications_mem L, dedupe_publications_sorted L⟩

/-- Witness for C6 at a concrete three-record list (a duplicate title in
different case/whitespace and an empty title). -/
theorem claim_C6_dedupe_invariants_witness :
    dedupe_publications (dedupe_publications [pubDupA, pubDupB, pubEmptyTitle])
      = dedupe_publications [pubDupA, pubDupB, pubEmptyTitle]
    ∧ normTitle pubDupA ≠ "" :=
  ⟨(claim_C6_dedupe_invariants [pubDupA, pubDupB, pubEmptyTitle]).1,
   (claim_C6_dedupe_invariants [pubDupA, pubDupB, pubEmptyTitle]).2.2.1 pubDupA
     (by decide)⟩

/-- Claim C8: abstract reconstruction is absent exactly when no index is
present; otherwise it joins, with single spaces, the words of a
position-sorted permutation of the flattened `(position, word)` pairs;
and the spec's example evaluates to `"quick fox a"`. -/
theorem claim_C8_abstract_reconstruction :
    (∀ item : OAItem, item.abstract_inverted_index = none → openalex_abstract item = none)
    ∧ (∀ (item : OAItem) (inv : List (String × List Int)),
        item.abstract_inverted_index = some inv → inv ≠ [] →
        ∃ l : List (Int × String),
          List.Perm l (invertedTokens inv) ∧ l.Pairwise posLe ∧
          openalex_abstract item = some (joinSpace (l.map (fun t => t.2))))
    ∧ openalex_abstract
        { id := none, doi := none, display_name := none, authorships := [],
          publication_year := none, publication_date := none,
          landing_page_url := none,
          abstract_inverted_index := some [("a", [2]), ("quick", [0]), ("fox", [1])] }
        = some "quick fox a" := by
  refine ⟨?_, ?_, by decide⟩
  · intro item h
    simp [openalex_abstract, h]
  · intro item inv h hne
    refine ⟨List.insertionSort posLe (invertedTokens inv),
      List.perm_insertionSort posLe (invertedTokens inv),
      List.sorted_insertionSort posLe (invertedTokens inv), ?_⟩
    simp [openalex_abstract, h, List.isEmpty_iff, hne]

/-- Witness for C8: the absent-index case and the one-word index, with
the hypotheses discharged at concrete records. -/
theorem claim_C8_abstract_reconstruction_witness :
    openalex_abstract
      { id := none, doi := none, display_name := none, authorships := [],
        publication_year := none, publication_date := none,
        landing_page_url := none, abstract_inverted_index := none } = none
    ∧ ∃ l : List (Int × String),
        List.Perm l (invertedTokens [("lone", [0])]) ∧ l.Pairwise posLe ∧
        openalex_abstract
          { id := none, doi := none, display_name := none, authorships := [],
            publication_year := none, publication_date := none,
            landing_page_url := none,
            abstract_inverted_index := some [("lone", [0])] }
          = some (joinSpace (l.map (fun t => t.2))) :=
  ⟨claim_C8_abstract_reconstruction.1 _ rfl,
   claim_C8_abstract_reconstruction.2.1 _ [("lone", [0])] rfl (by decide)⟩

/-- Claim C3 counterexample: a fallback-source record carrying both a
bare year and a full publication date is mapped to the stringified
year, not to the full date the claim says is preferred. -/
theorem claim_C3_counterexample :
    pyTruthyS (SemItem.publicationDate
      { title := none, abstract := none, year := some 2020,
        publicationDate := some "2021-05-01", date := none, url := none,
        doi := none, authors := [] }) = true
    ∧ published_on
        { title := none, abstract := none, year := some 2020,
          publicationDate := some "2021-05-01", date := none, url := none,
          doi := none, authors := [] }
      ≠ SemItem.publicationDate
        { title := none, abstract := none, year := some 2020,
          publicationDate := some "2021-05-01", date := none, url := none,
          doi := none, authors := [] } := by decide

/-- Claim C3 (amended): the primary-source mapper prefers the full
date and falls back to the stringified year; the fallback-source
mapper prefers the stringified year and falls back to the full-date
fields (`publicationDate`, then `date`). -/
theorem claim_C3_amended :
    (∀ item : OAItem,
      (pyTruthyS item.publication_date = true →
        openalex_published_on item = item.publication_date)
      ∧ (pyTruthyS item.publication_date = false → pyTruthyI item.publication_year = true →
          openalex_published_on item = some (toString (item.publication_year.getD 0)))
      ∧ (pyTruthyS item.publication_date = false → pyTruthyI item.publication_year = false →
          openalex_published_on item = none))
    ∧ (∀ item : SemItem,
      (pyTruthyI item.year = true → published_on item = some (toString (item.year.getD 0)))
      ∧ (pyTruthyI item.year = false → pyTruthyS item.publicationDate = true →
          published_on item = item.publicationDate)
      ∧ (pyTruthyI item.year = false → pyTruthyS item.publicationDate = false →
          pyTruthyS item.date = true → published_on item = item.date)
      ∧ (pyTruthyI item.year = false → pyTruthyS item.publicationDate = false →
          pyTruthyS item.date = false → published_on item = none)) := by
  constructor
  · intro item
    refine ⟨fun h1 => ?_, fun h1 h2 => ?_, fun h1 h2 => ?_⟩
    · simp [openalex_published_on, h1]
    · simp [openalex_published_on, h1, h2]
    · simp [openalex_published_on, h1, h2]
  · intro item
    refine ⟨fun h1 => ?_, fun h1 h2 => ?_, fun h1 h2 h3 => ?_, fun h1 h2 h3 => ?_⟩
    · simp [published_on, h1]
    · simp [published_on, h1, h2]
    · simp [published_on, h1, h2, h3]
    · simp [published_on, h1, h2, h3]

/-- Witness for C3 (amended) at concrete records of both sources. -/
theorem claim_C3_amended_witness :
    openalex_published_on
      { id := none, doi := none, display_name := none, authorships := [],
        publication_year := some 2019, publication_date := some "2019-03-04",
        landing_page_url := none, abstract_inverted_index := none }
      = some "2019-03-04"
    ∧ published_on
        { title := none, abstract := none, year := some 2020,
          publicationDate := some "2021-05-01", date := none, url := none,
          doi := none, authors := [] } = some (toString (2020 : Int)) :=
  ⟨(claim_C3_amended.1
      { id := none, doi := none, display_name := none, authorships := [],
        publication_year := some 2019, publication_date := some "2019-03-04",
        landing_page_url := none, abstract_inverted_index := none }).1 (by decide),
   (claim_C3_amended.2
      { title := none, abstract := none, year := some 2020,
        publicationDate := some "2021-05-01", date := none, url := none,
        doi := none, authors := [] }).1 (by decide)⟩

/-- Claim C5: the `variants` set is iterated in an unspecified Python
set order, so there is an admissible iteration order (a permutation of
the set's elements) under which the first variant tried — and hence the
fallback-source query — is not the canonical cleaned name. -/
theorem claim_C5_variant_order_bug :
    ∃ ord : List String → List String,
      List.Perm (ord (name_variants_elems "Jane Doe")) (name_variants_elems "Jane Doe")
      ∧ (name_variants ord "Jane Doe").head? ≠ some (normalize_professor_name "Jane Doe") := by
  refine ⟨fun l => l.reverse, (List.reverse_perm _), ?_⟩
  decide

/-! ### Claim C1: the name-similarity tiers -/

theorem mk_take_one_eq (a b : List Char) :
    (String.mk (a.take 1) = String.mk (b.take 1)) ↔ a.head? = b.head? := by
  cases a <;> cases b <;> simp [String.ext_iff]

/-- Claim C1 counterexample: for the blank pair both sides normalize to
the same (empty) name — an exact normalized match — yet the sub-score
is 0, not 4. -/
theorem claim_C1_counterexample :
    names_match "" "" = true ∧ name_similarity_score "" "" = 0
    ∧ name_similarity_score "" "" ≠ claim_name_tiers "" "" := by decide

/-- Claim C1 (amended): the tiered description holds whenever both
names have at least one whitespace-separated token; when either side
has none, the sub-score is 0 (half-point units: `8, 6, 4, 1` stand for
the claim's `4, 3, 2, 0.5`). -/
theorem claim_C1_amended (candidate target : String) :
    (pySplit candidate = [] ∨ pySplit target = [] →
      name_similarity_score candidate target = 0)
    ∧ (pySplit candidate ≠ [] → pySplit target ≠ [] →
        name_similarity_score candidate target = claim_name_tiers candidate target) := by
  constructor
  · rintro (h | h) <;> simp [name_similarity_score, h]
  · intro hc ht
    obtain ⟨x, xs, hcx⟩ : ∃ x xs, pySplit candidate = x :: xs := by
      cases h : pySplit candidate with
      | nil => exact absurd h hc
      | cons a l => exact ⟨a, l, rfl⟩
    obtain ⟨y, ys, hty⟩ : ∃ y ys, pySplit target = y :: ys := by
      cases h : pySplit target with
      | nil => exact absurd h ht
      | cons a l => exact ⟨a, l, rfl⟩
    have hgc := List.getLast?_eq_getLast (x :: xs) (List.cons_ne_nil x xs)
    have hgt := List.getLast?_eq_getLast (y :: ys) (List.cons_ne_nil y ys)
    simp only [name_similarity_score, claim_name_tiers, hcx, hty, List.isEmpty_cons,
      Bool.or_self, Bool.false_eq_true, if_false, List.headD_cons, List.head?_cons,
      Option.some_bind]
    refine if_congr Iff.rfl rfl (if_congr ?_ (if_congr ?_ rfl rfl) (if_congr ?_ rfl rfl))
    · rw [List.getLastD_eq_getLast?, List.getLastD_eq_getLast?, hgc, hgt]
      simp
    · exact mk_take_one_eq x.toList y.toList
    · simp

/-- Witness for C1 (amended) at a concrete pair: shared last token and
first initial, scoring 3 (6 half-points). -/
theorem claim_C1_amended_witness :
    name_similarity_score "John Doe" "Jane Doe" = claim_name_tiers "John Doe" "Jane Doe"
    ∧ claim_name_tiers "John Doe" "Jane Doe" = 6 :=
  ⟨(claim_C1_amended "John Doe" "Jane Doe").2 (by decide) (by decide), by decide⟩

/-! ### Claim C2: acceptance threshold of the author resolver -/

/-- Accumulator invariant of the resolver loop: a missing best
candidate means a zero best score, and a present one was found in some
already-searched variant's results with a positive score equal to the
running best. -/
def AccInv (g : String → List Candidate) (institution : Option String)
    (V : List String) (acc : Option Candidate × Score) : Prop :=
  (acc.1 = none → acc.2 = 0)
  ∧ (∀ c, acc.1 = some c →
      0 < acc.2 ∧ ∃ v ∈ V, c ∈ g v ∧ score_author_candidate c v institution = acc.2)

theorem AccInv_mono (g : String → List Candidate) (institution : Option String)
    {V W : List String} (hVW : ∀ v ∈ V, v ∈ W) {acc : Option Candidate × Score}
    (h : AccInv g institution V acc) : AccInv g institution W acc := by
  refine ⟨h.1, fun c hc => ?_⟩
  obtain ⟨hpos, v, hv, hcv, hs⟩ := h.2 c hc
  exact ⟨hpos, v, hVW v hv, hcv, hs⟩

theorem scanCandidates_inv (g : String → List Candidate) (institution : Option String)
    (V : List String) (n : String) (hn : n ∈ V) :
    ∀ (cands : List Candidate), (∀ c ∈ cands, c ∈ g n) →
    ∀ acc, AccInv g institution V acc →
      AccInv g institution V (scanCandidates n institution cands acc)
  | [], _, _, hacc => hacc
  | c :: cs, hsub, acc, hacc => by
    rw [scanCandidates]
    split
    · rename_i hlt
      refine scanCandidates_inv g institution V n hn cs
        (fun d hd => hsub d (List.mem_cons_of_mem _ hd)) _ ⟨?_, ?_⟩
      · intro h; simp at h
      · intro d hd
        have hdc : c = d := by simpa using hd
        subst hdc
        refine ⟨?_, n, hn, hsub c (List.mem_cons_self _ _), rfl⟩
        show (0 : Int) < score_author_candidate c n institution
        rcases h1 : acc.1 with _ | e
        · have h0 := hacc.1 h1
          rw [← h0]
          exact hlt
        · have h0 := (hacc.2 e h1).1
          exact lt_trans h0 hlt
    · exact scanCandidates_inv g institution V n hn cs
        (fun d hd => hsub d (List.mem_cons_of_mem _ hd)) acc hacc

theorem bind_id_eq_some {acc : Option Candidate} {id : String}
    (h : acc.bind Candidate.id = some id) :
    ∃ c, acc = some c ∧ c.id = some id := by
  cases acc with
  | none => simp at h
  | some c => exact ⟨c, rfl, by simpa using h⟩

theorem resolveLoop_sound (g : String → List Candidate) (institution : Option String) :
    ∀ (opts V : List String) (acc : Option Candidate × Score),
      AccInv g institution V acc →
      ∀ id, resolveLoop (fun n => Except.ok (g n)) institution opts acc
          = .ok (some id) →
      ∃ v, (v ∈ V ∨ v ∈ opts) ∧ ∃ c ∈ g v,
        0 < score_author_candidate c v institution ∧ c.id = some id
  | [], V, acc, hacc, id, h => by
    rw [resolveLoop] at h
    obtain ⟨c, hc, hcid⟩ := bind_id_eq_some (Except.ok.inj h)
    obtain ⟨hpos, v, hv, hcv, hs⟩ := hacc.2 c hc
    exact ⟨v, Or.inl hv, c, hcv, lt_of_lt_of_eq hpos hs.symm, hcid⟩
  | n :: rest, V, acc, hacc, id, h => by
    have hstep : resolveLoop (fun m => Except.ok (g m)) institution (n :: rest) acc
        = (if 10 ≤ (scanCandidates n institution (g n) acc).2 then
             Except.ok ((scanCandidates n institution (g n) acc).1.bind Candidate.id)
           else resolveLoop (fun m => Except.ok (g m)) institution rest
             (scanCandidates n institution (g n) acc)) := rfl
    rw [hstep] at h
    have hinv2 : AccInv g institution (n :: V) (scanCandidates n institution (g n) acc) :=
      scanCandidates_inv g institution (n :: V) n (List.mem_cons_self n V) (g n)
        (fun _ hc => hc) acc
        (AccInv_mono g institution (fun v hv => List.mem_cons_of_mem _ hv) hacc)
    by_cases h10 : 10 ≤ (scanCandidates n institution (g n) acc).2
    · rw [if_pos h10] at h
      obtain ⟨c, hc, hcid⟩ := bind_id_eq_some (Except.ok.inj h)
      obtain ⟨hpos, v, hv, hcv, hs⟩ := hinv2.2 c hc
      refine ⟨v, ?_, c, hcv, lt_of_lt_of_eq hpos hs.symm, hcid⟩
      rcases List.mem_cons.mp hv with hvn | hvV
      · exact Or.inr (hvn ▸ List.mem_cons_self n rest)
      · exact Or.inl hvV
    · rw [if_neg h10] at h
      obtain ⟨v, hv, c, hcv, hpos, hcid⟩ :=
        resolveLoop_sound g institution rest (n :: V) _ hinv2 id h
      refine ⟨v, ?_, c, hcv, hpos, hcid⟩
      rcases hv with hvnV | hvrest
      · rcases List.mem_cons.mp hvnV with hvn | hvV
        · exact Or.inr (hvn ▸ List.mem_cons_self n rest)
        · exact Or.inl hvV
      · exact Or.inr (List.mem_cons_of_mem _ hvrest)

theorem scanCandidates_stay (n : String) (institution : Option String) :
    ∀ (cands : List Candidate),
      (∀ c ∈ cands, score_author_candidate c n institution ≤ 0) →
      scanCandidates n institution cands (none, 0) = (none, 0)
  | [], _ => rfl
  | c :: cs, h => by
    rw [scanCandidates]
    rw [if_neg (by
      have hc0 := h c (List.mem_cons_self _ _)
      show ¬((0 : Int) < score_author_candidate c n institution)
      exact fun hlt => absurd hc0 (not_le.mpr hlt))]
    exact scanCandidates_stay n institution cs
      (fun d hd => h d (List.mem_cons_of_mem _ hd))

theorem resolveLoop_all_nonpos (g : String → List Candidate) (institution : Option String) :
    ∀ (opts : List String),
      (∀ v ∈ opts, ∀ c ∈ g v, score_author_candidate c v institution ≤ 0) →
      resolveLoop (fun n => Except.ok (g n)) institution opts (none, 0) = .ok none
  | [], _ => rfl
  | n :: rest, h => by
    have hstep : resolveLoop (fun m => Except.ok (g m)) institution (n :: rest) (none, 0)
        = (if 10 ≤ (scanCandidates n institution (g n) (none, 0)).2 then
             Except.ok ((scanCandidates n institution (g n) (none, 0)).1.bind Candidate.id)
           else resolveLoop (fun m => Except.ok (g m)) institution rest
             (scanCandidates n institution (g n) (none, 0))) := rfl
    rw [hstep, scanCandidates_stay n institution (g n) (h n (List.mem_cons_self _ _))]
    rw [if_neg (by norm_num)]
    exact resolveLoop_all_nonpos g institution rest
      (fun v hv => h v (List.mem_cons_of_mem _ hv))

/-- Claim C2 (amended): the threshold of 5 (10 half-points) only
controls the early stop across variants — a returned identifier need
not clear it.  What holds instead: any identifier the resolver returns
belongs to some candidate of some searched variant with strictly
positive score, and the resolver returns `none` precisely in the sense
that it does so whenever every candidate of every variant scores at
most 0. -/
theorem claim_C2_amended (g : String → List Candidate) (name_options : List String)
    (institution : Option String) :
    (∀ id, resolve_openalex_author (fun n => Except.ok (g n)) name_options institution
        = .ok (some id) →
      ∃ v ∈ name_options, ∃ c ∈ g v,
        0 < score_author_candidate c v institution ∧ c.id = some id)
    ∧ ((∀ v ∈ name_options, ∀ c ∈ g v, score_author_candidate c v institution ≤ 0) →
        resolve_openalex_author (fun n => Except.ok (g n)) name_options institution
          = .ok none) := by
  constructor
  · intro id h
    obtain ⟨v, hv, c, hcv, hpos, hcid⟩ :=
      resolveLoop_sound g institution name_options [] (none, 0)
        ⟨fun _ => rfl, fun c hc => by simp at hc⟩ id h
    rcases hv with hvnil | hvopts
    · exact absurd hvnil (List.not_mem_nil v)
    · exact ⟨v, hvopts, c, hcv, hpos, hcid⟩
  · intro h
    exact resolveLoop_all_nonpos g institution name_options h

/-- Claim C2 counterexample: a single candidate scoring 4 (8
half-points) — strictly below the threshold of 5 (10) — is still
accepted and its identifier returned. -/
theorem claim_C2_counterexample :
    resolve_openalex_author (fun _ => Except.ok [lowScoreCandidate]) ["jane doe"] none
      = .ok (some "A1")
    ∧ score_author_candidate lowScoreCandidate "jane doe" none = 8
    ∧ (8 : Score) < 10 :=
  ⟨by rfl, by decide, by decide⟩

/-- Witness for C2 (amended): a provider whose only candidate scores
below zero makes the resolver return `none`. -/
theorem claim_C2_amended_witness :
    resolve_openalex_author (fun n => Except.ok ((fun _ => [zeroCand]) n)) ["jane doe"] none
      = .ok none :=
  (claim_C2_amended (fun _ => [zeroCand]) ["jane doe"] none).2 (by decide)

/-! ### Claim C4: the fallback path maps and sorts but never dedupes -/

theorem fetch_from_semantic_scholar_sorted (P : Provider) (professor : Professor)
    (cleaned_name : String) (limit : Nat) :
    (fetch_from_semantic_scholar P professor cleaned_name limit).Pairwise pubGe := by
  rw [fetch_from_semantic_scholar]
  split
  · split
    · exact List.Pairwise.nil
    · exact List.sorted_insertionSort pubGe _
  · exact List.Pairwise.nil

theorem fetch_from_semantic_scholar_no_dedupe (P : Provider) (professor : Professor)
    (cleaned_name : String) (limit : Nat) (aid : String) (data : List SemItem)
    (hl : lookup_semantic_author_id P professor cleaned_name = some aid)
    (ha : aid ≠ "") (hp : P.semPapers aid = .ok data) :
    List.Perm (fetch_from_semantic_scholar P professor cleaned_name limit)
      (data.map (fun it => map_semantic_item it professor.name)) := by
  simp only [fetch_from_semantic_scholar, hl, pyTruthyS, Option.getD_some]
  rw [if_pos (by simpa using ha), hp]
  exact List.perm_insertionSort pubGe _

/-- Claim C4 (amended): the fallback path applies no deduplication and
no topic filter — its result is exactly the mapped records of the
fallback source, stable-sorted by `published_on` descending, so
duplicate or empty lowercase-trimmed titles survive. -/
theorem claim_C4_amended :
    (∀ (P : Provider) (professor : Professor) (cleaned_name : String) (limit : Nat),
      (fetch_from_semantic_scholar P professor cleaned_name limit).Pairwise pubGe)
    ∧ (∀ (P : Provider) (professor : Professor) (cleaned_name : String) (limit : Nat)
        (aid : String) (data : List SemItem),
        lookup_semantic_author_id P professor cleaned_name = some aid → aid ≠ "" →
        P.semPapers aid = .ok data →
        List.Perm (fetch_from_semantic_scholar P professor cleaned_name limit)
          (data.map (fun it => map_semantic_item it professor.name))) :=
  ⟨fetch_from_semantic_scholar_sorted,
   fun P professor cleaned_name limit aid data hl ha hp =>
     fetch_from_semantic_scholar_no_dedupe P professor cleaned_name limit aid data hl ha hp⟩

/-- Claim C4 counterexample: the fallback source returns two records
whose lowercase-trimmed titles coincide, and both survive in the
returned list — the titles are not pairwise distinct. -/
theorem claim_C4_counterexample :
    ¬ ((fetch_from_semantic_scholar semDupProvider
          { name := "Jane Doe", institution_name := "Rush University" }
          "Jane Doe" 20).map normTitle).Nodup := by decide

/-- Witness for C4 (amended): at the duplicate-title provider the
fallback result is a permutation of the two mapped records. -/
theorem claim_C4_amended_witness :
    List.Perm (fetch_from_semantic_scholar semDupProvider
        { name := "Jane Doe", institution_name := "Rush University" } "Jane Doe" 20)
      ([semItemDup1, semItemDup2].map (fun it => map_semantic_item it "Jane Doe")) :=
  claim_C4_amended.2 semDupProvider
    { name := "Jane Doe", institution_name := "Rush University" } "Jane Doe" 20 "S1"
    [semItemDup1, semItemDup2] (by rfl) (by decide) (by rfl)

/-! ### Claim C9: the orchestrator never propagates provider errors -/

theorem fetch_openalex_works_sorted (P : Provider) (aid : String)
    (professor_name : String) (l : List Pub)
    (h : fetch_openalex_works P aid professor_name = .ok l) : l.Pairwise pubGe := by
  rw [fetch_openalex_works] at h
  split at h
  · exact absurd h (by simp)
  · obtain rfl := Except.ok.inj h
    exact dedupe_publications_sorted _

theorem search_openalex_works_sorted (P : Provider) (professor_name : String) :
    ∀ (opts : List String) (l : List Pub),
      search_openalex_works P professor_name opts = .ok l → l.Pairwise pubGe
  | [], l, h => by
    obtain rfl := Except.ok.inj h
    exact List.Pairwise.nil
  | n :: rest, l, h => by
    simp only [search_openalex_works] at h
    split at h
    · exact absurd h (by simp)
    · split at h
      · exact search_openalex_works_sorted P professor_name rest l h
      · obtain rfl := Except.ok.inj h
        exact dedupe_publications_sorted _

theorem fetch_from_openalex_body_sorted (P : Provider) (professor : Professor)
    (name_options : List String) (l : List Pub)
    (h : fetch_from_openalex_body P professor name_options = .ok l) :
    l.Pairwise pubGe := by
  simp only [fetch_from_openalex_body] at h
  split at h
  · exact absurd h (by simp)
  · split at h
    · split at h
      · exact absurd h (by simp)
      · rename_i pubs hworks
        split at h
        · exact search_openalex_works_sorted P professor.name name_options l h
        · obtain rfl := Except.ok.inj h
          exact fetch_openalex_works_sorted P _ professor.name _ hworks
    · exact search_openalex_works_sorted P professor.name name_options l h

theorem fetch_from_openalex_sorted (P : Provider) (professor : Professor)
    (name_options : List String) :
    (fetch_from_openalex P professor name_options).Pairwise pubGe := by
  rw [fetch_from_openalex]
  split
  · exact List.Pairwise.nil
  · rename_i pubs hb
    exact fetch_from_openalex_body_sorted P professor name_options pubs hb

/-- Claim C9: whatever the providers do — including raising on every
request — the orchestrator returns a date-descending-ordered list of
at most `limit` publications; every provider failure is absorbed into
an empty contribution, never an exception. -/
theorem claim_C9_orchestrator (setOrder : List String → List String) (P : Provider)
    (offline : Bool) (professor : Professor) (limit : Nat) :
    (fetch_publications setOrder P offline professor limit).length ≤ limit
    ∧ (fetch_publications setOrder P offline professor limit).Pairwise pubGe := by
  rw [fetch_publications]
  split
  · exact ⟨by simp, List.Pairwise.nil⟩
  · simp only []
    split
    · exact ⟨by simp, List.Pairwise.nil⟩
    · split
      · exact ⟨List.length_take_le _ _,
          List.Pairwise.sublist (List.take_sublist _ _)
            (fetch_from_openalex_sorted P professor _)⟩
      · exact ⟨List.length_take_le _ _,
          List.Pairwise.sublist (List.take_sublist _ _)
            (fetch_from_semantic_scholar_sorted P professor _ _)⟩

/-! ### Claim C10: derived tags are pairwise distinct -/

theorem counterAdd_fst_mem :
    ∀ (cs : List (String × Nat)) (key : String) (n : Nat) (x : String),
      x ∈ (counterAdd cs key n).map Prod.fst → x ∈ cs.map Prod.fst ∨ x = key
  | [], key, n, x, h => by
    simp [counterAdd] at h
    exact Or.inr h
  | (k0, n0) :: rest, key, n, x, h => by
    rw [counterAdd] at h
    split at h
    · exact Or.inl (by simpa using h)
    · rcases List.mem_cons.mp h with h0 | hrest
      · exact Or.inl (by simp [h0])
      · rcases counterAdd_fst_mem rest key n x hrest with hmem | hkey
        · exact Or.inl (List.mem_cons_of_mem _ hmem)
        · exact Or.inr hkey

theorem counterAdd_fst_nodup :
    ∀ (cs : List (String × Nat)) (key : String) (n : Nat),
      (cs.map Prod.fst).Nodup → ((counterAdd cs key n).map Prod.fst).Nodup
  | [], _, _, _ => by simp [counterAdd]
  | (k0, n0) :: rest, key, n, hnd => by
    rw [counterAdd]
    split
    · simpa using hnd
    · rename_i hne
      rw [List.map_cons, List.nodup_cons] at hnd ⊢
      refine ⟨fun hmem => ?_, counterAdd_fst_nodup rest key n hnd.2⟩
      rcases counterAdd_fst_mem rest key n k0 hmem with hmem0 | hkey
      · exact hnd.1 hmem0
      · exact hne hkey

theorem counterFoldTags_nodup (combined : List Char) :
    ∀ (kws : List (String × String)) (acc : List (String × Nat)),
      (acc.map Prod.fst).Nodup →
      (((kws.foldl
          (fun counts pc =>
            if phraseCount pc.1 combined ≠ 0 then counterAdd counts pc.2 (phraseCount pc.1 combined)
            else counts)
          acc).map Prod.fst)).Nodup
  | [], acc, h => h
  | pc :: kws, acc, h => by
    rw [List.foldl_cons]
    refine counterFoldTags_nodup combined kws _ ?_
    split
    · exact counterAdd_fst_nodup acc pc.2 _ h
    · exact h

theorem counterFoldTokens_nodup :
    ∀ (tokens : List String) (acc : List (String × Nat)),
      (acc.map Prod.fst).Nodup →
      (((tokens.foldl (fun cs t => counterAdd cs t 1) acc).map Prod.fst)).Nodup
  | [], acc, h => h
  | t :: ts, acc, h => by
    rw [List.foldl_cons]
    exact counterFoldTokens_nodup ts _ (counterAdd_fst_nodup acc t 1 h)

theorem mostCommon_fst_nodup (n : Nat) (items : List (String × Nat))
    (h : (items.map Prod.fst).Nodup) : ((mostCommon n items).map Prod.fst).Nodup := by
  have hperm : List.Perm ((List.insertionSort cntGe items).map Prod.fst) (items.map Prod.fst) :=
    (List.perm_insertionSort cntGe items).map Prod.fst
  have hnd : ((List.insertionSort cntGe items).map Prod.fst).Nodup := hperm.nodup_iff.mpr h
  rw [mostCommon, List.map_take]
  exact List.Nodup.sublist (List.take_sublist _ _) hnd

/-- Claim C10: `derive_tags` always returns pairwise-distinct tags —
taxonomy phrases sharing a canonical tag are merged into one counter
entry (so, e.g., a biography mentioning both "cochlear implant" and
"cochlear implants" yields the single tag "cochlear implants"), and
the generic fallback counts each token once. -/
theorem claim_C10_tags_nodup :
    (∀ (publications : List Pub) (biography : Option String),
      (derive_tags publications biography).Nodup)
    ∧ derive_tags [] (some "I study the cochlear implant and cochlear implants")
        = ["cochlear implants"] := by
  refine ⟨?_, by decide⟩
  intro publications biography
  rw [derive_tags]
  split
  · exact List.nodup_nil
  · simp only []
    split
    · exact mostCommon_fst_nodup 10 _ (counterFoldTags_nodup _ ENT_KEYWORDS [] (by simp))
    · exact mostCommon_fst_nodup 10 _ (counterFoldTokens_nodup _ [] (by simp))

/-! ### Claim C7: normalisation idempotence -/

/-- No `'('` in the list is followed by a `')'` — the configurations on
which the parenthesis-stripping `re.sub` finds no match. -/
def NoPair : List Char → Prop
  | [] => True
  | c :: rest => if c = '(' then ')' ∉ rest else NoPair rest

theorem NoPair.nil : NoPair [] := trivial

theorem noPair_of_not_mem : ∀ {l : List Char}, ')' ∉ l → NoPair l
  | [], _ => trivial
  | c :: rest, h => by
    rw [NoPair]
    split
    · exact fun hm => h (List.mem_cons_of_mem _ hm)
    · exact noPair_of_not_mem (fun hm => h (List.mem_cons_of_mem _ hm))

theorem NoPair.of_cons : ∀ {c : Char} {l : List Char}, NoPair (c :: l) → NoPair l := by
  intro c l h
  rw [NoPair] at h
  split at h
  · exact noPair_of_not_mem h
  · exact h

theorem NoPair.of_cons_ne {c : Char} {l : List Char} (hc : c ≠ '(')
    (h : NoPair l) : NoPair (c :: l) := by
  rw [NoPair, if_neg hc]
  exact h

theorem NoPair.sublist : ∀ {l' l : List Char}, List.Sublist l' l → NoPair l → NoPair l' := by
  intro l' l hsub
  induction hsub with
  | slnil => exact fun _ => trivial
  | cons a _ ih => exact fun h => ih h.of_cons
  | cons₂ a hs ih =>
    intro h
    rw [NoPair] at h ⊢
    by_cases ha : a = '('
    · rw [if_pos ha] at h ⊢
      exact fun hm => h (hs.subset hm)
    · rw [if_neg ha] at h ⊢
      exact ih h

theorem afterRParen_suffix : ∀ {cs a : List Char}, afterRParen cs = some a → a.IsSuffix cs
  | [], _, h => by simp [afterRParen] at h
  | c :: rest, a, h => by
    rw [afterRParen] at h
    split at h
    · obtain rfl := Option.some.inj h
      exact (List.suffix_cons c rest)
    · exact (afterRParen_suffix h).trans (List.suffix_cons c rest)

theorem afterRParen_none : ∀ {cs : List Char}, afterRParen cs = none → ')' ∉ cs
  | [], _ => List.not_mem_nil _
  | c :: rest, h => by
    rw [afterRParen] at h
    split at h
    · exact absurd h (by simp)
    · rename_i hc
      intro hm
      rcases List.mem_cons.mp hm with h0 | hrest
      · exact hc h0.symm
      · exact afterRParen_none h hrest

theorem not_mem_afterRParen_none : ∀ {cs : List Char}, ')' ∉ cs → afterRParen cs = none
  | [], _ => rfl
  | c :: rest, h => by
    rw [afterRParen]
    rw [if_neg (fun hc => h (by rw [← hc]; exact List.mem_cons_self c rest))]
    exact not_mem_afterRParen_none (fun hm => h (List.mem_cons_of_mem _ hm))

theorem removeParensFuel_sublist : ∀ (f : Nat) (cs : List Char),
    List.Sublist (removeParensFuel f cs) cs
  | 0, cs => List.nil_sublist cs
  | _ + 1, [] => List.Sublist.refl []
  | f + 1, c :: rest => by
    rw [removeParensFuel]
    split
    · split
      · rename_i after hafter
        exact ((removeParensFuel_sublist f after).trans
          (afterRParen_suffix hafter).sublist).trans (List.sublist_cons_self c rest)
      · exact (removeParensFuel_sublist f rest).cons₂ c
    · exact (removeParensFuel_sublist f rest).cons₂ c

theorem noPair_removeParensFuel : ∀ (f : Nat) (cs : List Char),
    NoPair (removeParensFuel f cs)
  | 0, _ => trivial
  | _ + 1, [] => trivial
  | f + 1, c :: rest => by
    rw [removeParensFuel]
    split
    · rename_i hc
      split
    
      · exact noPair_removeParensFuel f _
      · rename_i hafter
        subst hc
        rw [NoPair, if_pos rfl]
        exact fun hm => afterRParen_none hafter ((removeParensFuel_sublist f rest).subset hm)
    · rename_i hc
      exact NoPair.of_cons_ne hc (noPair_removeParensFuel f rest)

theorem removeParensFuel_eq_self : ∀ (f : Nat) (cs : List Char), cs.length ≤ f →
    NoPair cs → removeParensFuel f cs = cs
  | 0, cs, hf, _ => by
    rw [List.length_eq_zero.mp (Nat.le_zero.mp hf)]
    rfl
  | _ + 1, [], _, _ => rfl
  | f + 1, c :: rest, hf, hnp => by
    rw [removeParensFuel]
    have hrest : rest.length ≤ f := by simpa [List.length_cons, Nat.succ_le_succ_iff] using hf
    split
    · rename_i hc
      subst hc
      rw [NoPair, if_pos rfl] at hnp
      rw [not_mem_afterRParen_none hnp]
      exact congrArg (List.cons '(') (removeParensFuel_eq_self f rest hrest (noPair_of_not_mem hnp))
    · rename_i hc
      rw [NoPair, if_neg hc] at hnp
      exact congrArg (List.cons c) (removeParensFuel_eq_self f rest hrest hnp)

theorem removeParens_eq_self {cs : List Char} (h : NoPair cs) : removeParens cs = cs :=
  removeParensFuel_eq_self cs.length cs (Nat.le_refl _) h

theorem collapseWs_mem : ∀ {l : List Char} {c : Char}, c ∈ collapseWs l → c ∈ l ∨ c = ' '
  | [], c, h => by simp [collapseWs] at h
  | [d], c, h => by
    rw [collapseWs] at h
    split at h
    · exact Or.inr (by simpa using h)
    · exact Or.inl (by simpa using h)
  | d :: e :: rest, c, h => by
    rw [collapseWs] at h
    split at h
    · rcases collapseWs_mem h with hm | hsp
      · exact Or.inl (List.mem_cons_of_mem _ hm)
      · exact Or.inr hsp
    · rcases List.mem_cons.mp h with h0 | htail
      · split at h0
        · exact Or.inr h0
        · exact Or.inl (h0 ▸ List.mem_cons_self _ _)
      · rcases collapseWs_mem htail with hm | hsp
        · exact Or.inl (List.mem_cons_of_mem _ hm)
        · exact Or.inr hsp

theorem collapseWs_space_eq : ∀ {l : List Char} {c : Char}, c ∈ collapseWs l →
    pyIsSpace c = true → c = ' '
  | [], c, h, _ => by simp [collapseWs] at h
  | [d], c, h, hsp => by
    rw [collapseWs] at h
    split at h
    · simpa using h
    · rename_i hd
      have : c = d := by simpa using h
      exact absurd (this ▸ hsp) (by simpa using hd)
  | d :: e :: rest, c, h, hsp => by
    rw [collapseWs] at h
    split at h
    · exact collapseWs_space_eq h hsp
    · rcases List.mem_cons.mp h with h0 | htail
      · split at h0
        · exact h0
        · rename_i hd
          rw [h0] at hsp
          exact absurd hsp (by simpa using hd)
      · exact collapseWs_space_eq htail hsp

/-- No two adjacent whitespace characters. -/
def noAdj : List Char → Prop
  | [] => True
  | [_] => True
  | c :: d :: rest => ¬(pyIsSpace c = true ∧ pyIsSpace d = true) ∧ noAdj (d :: rest)

theorem noAdj_tail : ∀ {c : Char} {l : List Char}, noAdj (c :: l) → noAdj l
  | _, [], _ => trivial
  | _, _ :: _, h => h.2

theorem collapseWs_head_of_nonspace {d : Char} (rest : List Char)
    (hd : pyIsSpace d = false) :
    ∃ t, collapseWs (d :: rest) = d :: t := by
  cases rest with
  | nil =>
    rw [collapseWs, if_neg (by simp [hd])]
    exact ⟨[], rfl⟩
  | cons e rest' =>
    rw [collapseWs, if_neg (by simp [hd])]
    exact ⟨_, by rw [if_neg (by simp [hd])]⟩

theorem noAdj_collapseWs : ∀ (l : List Char), noAdj (collapseWs l)
  | [] => trivial
  | [c] => by
    rw [collapseWs]
    split
    · trivial
    · trivial
  | c :: d :: rest => by
    rw [collapseWs]
    split
    · exact noAdj_collapseWs (d :: rest)
    · rename_i hcd
      by_cases hc : pyIsSpace c = true
      · have hd : pyIsSpace d = false := by
          cases hpd : pyIsSpace d
          · rfl
          · exact absurd (by simp [hc, hpd]) hcd
        obtain ⟨t, ht⟩ := collapseWs_head_of_nonspace rest hd
        rw [if_pos hc, ht]
        exact ⟨fun hpair => by simp [hd] at hpair, ht ▸ noAdj_collapseWs (d :: rest)⟩
      · rw [if_neg hc]
        rcases hrec : collapseWs (d :: rest) with _ | ⟨h0, t0⟩
        · trivial
        · refine ⟨fun hpair => hc hpair.1, hrec ▸ noAdj_collapseWs (d :: rest)⟩

theorem noAdj_append_left : ∀ (l t : List Char), noAdj (l ++ t) → noAdj l
  | [], _, _ => trivial
  | [_], _, _ => trivial
  | c :: d :: l, t, h => ⟨h.1, noAdj_append_left (d :: l) t h.2⟩

theorem noAdj_suffix {l' l : List Char} (hs : l'.IsSuffix l) (h : noAdj l) : noAdj l' := by
  obtain ⟨t, rfl⟩ := hs
  induction t with
  | nil => exact h
  | cons a t ih => exact ih (noAdj_tail h)

theorem noAdj_prefix {l' l : List Char} (hs : l'.IsPrefix l) (h : noAdj l) : noAdj l' := by
  obtain ⟨t, rfl⟩ := hs
  exact noAdj_append_left l' t h

theorem pyStripBack_prefixOf (l : List Char) : (pyStripBack l).IsPrefix l := by
  rw [pyStripBack]
  have h1 : (l.reverse.dropWhile pyIsSpace).IsSuffix l.reverse :=
    List.dropWhile_suffix pyIsSpace
  have h2 : ((l.reverse.dropWhile pyIsSpace).reverse).IsPrefix l.reverse.reverse :=
    List.reverse_prefix.mpr h1
  rwa [List.reverse_reverse] at h2

theorem pyStrip_sublist (l : List Char) : List.Sublist (pyStrip l) l :=
  ((pyStripBack_prefixOf (pyStripFront l)).sublist).trans
    (List.dropWhile_suffix pyIsSpace).sublist

theorem noAdj_pyStrip {l : List Char} (h : noAdj l) : noAdj (pyStrip l) :=
  noAdj_prefix (pyStripBack_prefixOf _)
    (noAdj_suffix (List.dropWhile_suffix pyIsSpace) h)

theorem head?_dropWhile_space : ∀ (l : List Char) {c : Char},
    ((l.dropWhile pyIsSpace).head? = some c) → pyIsSpace c = false
  | [], c, h => by simp at h
  | a :: rest, c, h => by
    by_cases ha : pyIsSpace a = true
    · rw [List.dropWhile_cons_of_pos ha] at h
      exact head?_dropWhile_space rest h
    · rw [List.dropWhile_cons_of_neg ha] at h
      have hac : a = c := by simpa using h
      subst hac
      simpa using ha

theorem stripPrefixCI_suffix : ∀ {t cs : List Char} {mr : List Char × List Char},
    stripPrefixCI t cs = some mr → mr.2.IsSuffix cs
  | [], cs, mr, h => by
    rw [stripPrefixCI] at h
    obtain rfl := Option.some.inj h
    exact List.suffix_refl cs
  | _ :: _, [], _, h => by simp [stripPrefixCI] at h
  | t :: ts, c :: cs, mr, h => by
    rw [stripPrefixCI] at h
    split at h
    · rw [Option.map_eq_some'] at h
      obtain ⟨mr', hmr', hmap⟩ := h
      have h2 : mr.2 = mr'.2 := by rw [← hmap]
      rw [h2]
      exact (stripPrefixCI_suffix hmr').trans (List.suffix_cons c cs)
    · exact absurd h (by simp)

theorem credTokenFirst_suffix :
    ∀ {toks : List (List Char)} {cs : List Char} {mr : List Char × List Char},
      credTokenFirst toks cs = some mr → mr.2.IsSuffix cs
  | [], _, _, h => by simp [credTokenFirst] at h
  | t :: ts, cs, mr, h => by
    rw [credTokenFirst] at h
    split at h
    · split at h
      · obtain rfl := Option.some.inj h
        rename_i mr' hmr' _
        exact stripPrefixCI_suffix hmr'
      · exact credTokenFirst_suffix h
    · exact credTokenFirst_suffix h

theorem credAfterToken_suffix {u : List Char} {la : Char × List Char}
    (h : credAfterToken u = some la) : la.2.IsSuffix u := by
  rw [credAfterToken] at h
  split at h
  · rename_i mr hmr
    have hsuf : mr.2.IsSuffix u := credTokenFirst_suffix hmr
    split at h
    · rename_i r2 heq
      obtain rfl := Option.some.inj h
      exact (List.suffix_cons '.' r2).trans (heq ▸ hsuf)
    · obtain rfl := Option.some.inj h
      exact hsuf
  · exact absurd h (by simp)

theorem credMatchAt_suffix {prev : Option Char} {cs : List Char} {la : Char × List Char}
    (h : credMatchAt prev cs = some la) : la.2.IsSuffix cs := by
  have key : ∀ (s1 : Option Char × List Char), s1.2.IsSuffix cs →
      (if boundaryOkL (if (s1.2.takeWhile pyIsSpace).isEmpty then s1.1 else some ' ')
       then credAfterToken (s1.2.dropWhile pyIsSpace) else none) = some la →
      la.2.IsSuffix cs := by
    intro s1 hs1 hh
    by_cases hb : boundaryOkL
        (if (s1.2.takeWhile pyIsSpace).isEmpty then s1.1 else some ' ') = true
    · rw [if_pos hb] at hh
      exact ((credAfterToken_suffix hh).trans (List.dropWhile_suffix _)).trans hs1
    · rw [if_neg hb] at hh
      exact absurd hh (by simp)
  refine key (if cs.head? = some ',' then (some ',', cs.tail) else (prev, cs)) ?_ h
  split
  · cases cs with
    | nil => exact List.suffix_refl _
    | cons a t => exact List.suffix_cons a t
  · exact List.suffix_refl cs

theorem credStripFuel_sublist : ∀ (f : Nat) (prev : Option Char) (cs : List Char),
    List.Sublist (credStripFuel f prev cs) cs
  | 0, _, cs => List.nil_sublist cs
  | _ + 1, _, [] => List.Sublist.refl []
  | f + 1, prev, c :: rest => by
    rw [credStripFuel]
    split
    · rename_i la hla
      exact (credStripFuel_sublist f (some la.1) la.2).trans (credMatchAt_suffix hla).sublist
    · exact (credStripFuel_sublist f (some c) rest).cons₂ c

theorem splitSpecialtyAux_prefixOf : ∀ (prev : Option Char) (l : List Char),
    (splitSpecialtyAux prev l).IsPrefix l
  | _, [] => List.prefix_refl []
  | prev, c :: rest => by
    rw [splitSpecialtyAux]
    split
    · exact List.nil_prefix
    · obtain ⟨t, ht⟩ := splitSpecialtyAux_prefixOf (some c) rest
      exact ⟨t, by rw [List.cons_append, ht]⟩

theorem collapseWs_eq_self : ∀ {l : List Char},
    (∀ c ∈ l, pyIsSpace c = true → c = ' ') → noAdj l → collapseWs l = l
  | [], _, _ => rfl
  | [c], hch, _ => by
    rw [collapseWs]
    split
    · rename_i hc
      rw [hch c (List.mem_cons_self _ _) hc]
    · rfl
  | c :: d :: rest, hch, hadj => by
    rw [collapseWs]
    rw [if_neg (fun hcd => hadj.1 (by simpa using hcd))]
    congr 1
    · split
      · rename_i hc
        exact (hch c (List.mem_cons_self _ _) hc).symm
      · rfl
    · exact collapseWs_eq_self (fun e he hsp => hch e (List.mem_cons_of_mem _ he) hsp) hadj.2

theorem pyStrip_eq_self : ∀ {l : List Char},
    (∀ c, l.head? = some c → pyIsSpace c = false) →
    (∀ c, l.getLast? = some c → pyIsSpace c = false) → pyStrip l = l
  | [], _, _ => rfl
  | c :: t, hh, hl => by
    have hc : pyIsSpace c = false := hh c rfl
    rw [pyStrip, pyStripFront, List.dropWhile_cons_of_neg (by simp [hc])]
    rw [pyStripBack]
    rcases hrev : (c :: t).reverse with _ | ⟨h0, t0⟩
    · exact absurd hrev (by simp)
    · have hlast : (c :: t).getLast? = some h0 := by
        rw [← List.head?_reverse, hrev]
        rfl
      have h0ns : pyIsSpace h0 = false := hl h0 hlast
      rw [List.dropWhile_cons_of_neg (by simp [h0ns]), ← hrev, List.reverse_reverse]

theorem noPair_collapseWs : ∀ {l : List Char}, NoPair l → NoPair (collapseWs l)
  | [], _ => trivial
  | [c], h => by
    rw [collapseWs]
    split
    · exact NoPair.of_cons_ne (by decide) trivial
    · exact h
  | c :: d :: rest, h => by
    rw [collapseWs]
    split
    · exact noPair_collapseWs h.of_cons
    · by_cases he : (if pyIsSpace c then ' ' else c) = '('
      · have hc : c = '(' := by
          by_cases hcs : pyIsSpace c = true
          · rw [if_pos hcs] at he
            exact absurd he (by decide)
          · rw [if_neg hcs] at he
            exact he
        subst hc
        rw [he, NoPair, if_pos rfl]
        rw [NoPair, if_pos rfl] at h
        intro hm
        rcases collapseWs_mem hm with hmem | hsp
        · exact h hmem
        · exact absurd hsp (by decide)
      · exact NoPair.of_cons_ne he (noPair_collapseWs h.of_cons)

theorem noPair_commaMap : ∀ {l : List Char}, NoPair l →
    NoPair (l.map (fun c => if c = ',' then ' ' else c))
  | [], _ => trivial
  | c :: rest, h => by
    rw [List.map_cons]
    by_cases hc : (if c = ',' then ' ' else c) = '('
    · have hcp : c = '(' := by
        by_cases hcc : c = ','
        · rw [if_pos hcc] at hc
          exact absurd hc (by decide)
        · rw [if_neg hcc] at hc
          exact hc
      subst hcp
      rw [hc, NoPair, if_pos rfl]
      rw [NoPair, if_pos rfl] at h
      intro hm
      rw [List.mem_map] at hm
      obtain ⟨a, ha, hae⟩ := hm
      have hra : a = ')' := by
        by_cases hac : a = ','
        · rw [if_pos hac] at hae
          exact absurd hae (by decide)
        · rw [if_neg hac] at hae
          exact hae
      exact h (hra ▸ ha)
    · exact NoPair.of_cons_ne hc (noPair_commaMap h.of_cons)

theorem prefix_head? {l' l : List Char} (h : l'.IsPrefix l) {c : Char}
    (hc : l'.head? = some c) : l.head? = some c := by
  obtain ⟨t, rfl⟩ := h
  cases l' with
  | nil => simp at hc
  | cons a r => simpa using hc

theorem pyStrip_head_nonspace (l : List Char) :
    ∀ c, (pyStrip l).head? = some c → pyIsSpace c = false := by
  intro c h
  have h2 : (pyStripFront l).head? = some c :=
    prefix_head? (pyStripBack_prefixOf (pyStripFront l)) h
  exact head?_dropWhile_space l h2

theorem pyStrip_last_nonspace (l : List Char) :
    ∀ c, (pyStrip l).getLast? = some c → pyIsSpace c = false := by
  intro c h
  rw [pyStrip, pyStripBack, List.getLast?_reverse] at h
  exact head?_dropWhile_space _ h

theorem stripCollapse_space (l : List Char) :
    ∀ c ∈ pyStrip (collapseWs l), pyIsSpace c = true → c = ' ' :=
  fun _ hc hsp => collapseWs_space_eq ((pyStrip_sublist _).subset hc) hsp

theorem nl_not_mem_stripCollapse (l : List Char) : '\n' ∉ pyStrip (collapseWs l) := by
  intro hm
  have h2 := (pyStrip_sublist _).subset hm
  have h3 := collapseWs_space_eq h2 (by decide)
  exact absurd h3 (by decide)

/-- A list satisfying all the invariants that `normalize_professor_name`
outputs enjoy — and on which the specialty and credential passes are
the identity — is a fixed point of the whole pipeline. -/
theorem normalizeL_fixed (y : List Char)
    (hmem : ∀ c ∈ y, c ≠ '\n' ∧ c ≠ ',')
    (hchar : ∀ c ∈ y, pyIsSpace c = true → c = ' ')
    (hadj : noAdj y)
    (hhead : ∀ c, y.head? = some c → pyIsSpace c = false)
    (hlast : ∀ c, y.getLast? = some c → pyIsSpace c = false)
    (hnp : NoPair y)
    (hsp : splitSpecialty y = y) (hcr : credStrip y = y) :
    normalizeL y = y := by
  have h0 : y.map (fun c => if c = '\n' then ' ' else c) = y :=
    (List.map_congr_left (fun a ha => if_neg (hmem a ha).1)).trans (List.map_id y)
  have h5 : y.map (fun c => if c = ',' then ' ' else c) = y :=
    (List.map_congr_left (fun a ha => if_neg (hmem a ha).2)).trans (List.map_id y)
  have h1 : collapseWs y = y := collapseWs_eq_self hchar hadj
  have h2 : pyStrip y = y := pyStrip_eq_self hhead hlast
  have h3 : removeParens y = y := removeParens_eq_self hnp
  simp only [normalizeL, h0, h1, h2, h3, hsp, hcr, h5]

/-- Claim C7 counterexample: normalisation is not idempotent — the
credential pass of the first run glues "m" and "d" into the credential
"md" (consuming ", do."), which a second run then strips entirely. -/
theorem claim_C7_counterexample :
    normalize_professor_name (normalize_professor_name "m, do.d")
      ≠ normalize_professor_name "m, do.d"
    ∧ normalize_professor_name "m, do.d" = "md"
    ∧ normalize_professor_name "md" = "" := by decide

set_option maxHeartbeats 2000000 in
/-- Claim C7 (amended): normalisation is idempotent on every input
whose normal form is left unchanged by the specialty-truncation and
credential-stripping passes (the first run can manufacture a new
specialty or credential token, which is the only failure mode); the
whitespace, parenthesis and comma passes are always identities on a
normal form.  In particular the spec's raw name normalizes to
"Jane A. Doe". -/
theorem claim_C7_amended :
    (∀ x : String,
      splitSpecialty (normalize_professor_name x).toList
        = (normalize_professor_name x).toList →
      credStrip (normalize_professor_name x).toList
        = (normalize_professor_name x).toList →
      normalize_professor_name (normalize_professor_name x) = normalize_professor_name x)
    ∧ normalize_professor_name "Jane A. Doe, MD, PhD (Otolaryngology)" = "Jane A. Doe" := by
  refine ⟨?_, by decide⟩
  intro x hsp hcr
  have hy : (normalize_professor_name x).toList
      = pyStrip (collapseWs ((credStrip (splitSpecialty (removeParens (pyStrip (collapseWs
          (x.toList.map (fun c => if c = '\n' then ' ' else c))))))).map
          (fun c => if c = ',' then ' ' else c))) := rfl
  have hnl1 : '\n' ∉ pyStrip (collapseWs
      (x.toList.map (fun c => if c = '\n' then ' ' else c))) :=
    nl_not_mem_stripCollapse _
  have hmem : ∀ c ∈ (normalize_professor_name x).toList, c ≠ '\n' ∧ c ≠ ',' := by
    intro c hc
    rw [hy] at hc
    rcases collapseWs_mem ((pyStrip_sublist _).subset hc) with hc5 | hspc
    · rw [List.mem_map] at hc5
      obtain ⟨a, ha4, hae⟩ := hc5
      have ha1 : a ∈ pyStrip (collapseWs
          (x.toList.map (fun c => if c = '\n' then ' ' else c))) :=
        (removeParensFuel_sublist _ _).subset
          ((splitSpecialtyAux_prefixOf none _).sublist.subset
            ((credStripFuel_sublist _ none _).subset ha4))
      have hanl : a ≠ '\n' := fun h => hnl1 (h ▸ ha1)
      by_cases hac : a = ','
      · rw [if_pos hac] at hae
        rw [← hae]
        exact ⟨by decide, by decide⟩
      · rw [if_neg hac] at hae
        rw [← hae]
        exact ⟨hanl, hac⟩
    · rw [hspc]
      exact ⟨by decide, by decide⟩
  have hres : normalizeL (normalize_professor_name x).toList
      = (normalize_professor_name x).toList := by
    refine normalizeL_fixed _ hmem ?_ ?_ ?_ ?_ ?_ hsp hcr
    · rw [hy]
      exact stripCollapse_space _
    · rw [hy]
      exact noAdj_pyStrip (noAdj_collapseWs _)
    · rw [hy]
      exact pyStrip_head_nonspace _
    · rw [hy]
      exact pyStrip_last_nonspace _
    · rw [hy]
      refine NoPair.sublist (pyStrip_sublist _) (noPair_collapseWs (noPair_commaMap
        (NoPair.sublist (credStripFuel_sublist _ none _)
          (NoPair.sublist (splitSpecialtyAux_prefixOf none _).sublist
            (noPair_removeParensFuel _ _)))))
  show String.mk (normalizeL (normalize_professor_name x).toList)
      = normalize_professor_name x
  rw [hres]
  rfl

/-- Witness for C7 (amended) at the spec's scenario name, whose normal
form "Jane A. Doe" is untouched by the specialty and credential
passes. -/
theorem claim_C7_amended_witness :
    normalize_professor_name
        (normalize_professor_name "Jane A. Doe, MD, PhD (Otolaryngology)")
      = normalize_professor_name "Jane A. Doe, MD, PhD (Otolaryngology)" :=
  claim_C7_amended.1 "Jane A. Doe, MD, PhD (Otolaryngology)" (by decide) (by decide)
